import Mathlib

/-!
Verification of the stochatreat stratified random assignment pipeline.

The development shallowly embeds the pipeline implemented in
src/stochatreat (stochatreat.py orchestration together with the component
modules preparation.py, misfit.py, treatment.py, utils.py):

* probabilities are modelled as exact rationals (the Python code converts
  the incoming floats to exact fractions via Fraction(...).limit_denominator
  before any integer arithmetic);
* the two seeded randomness streams are modelled as oracles: a list of
  per-row uniform draws (rng.rand(len(data)), used to pick misfits) and a
  per-block permutation source (argsort of rng.rand(blocks, lcm), used to
  permute the treatment mask), constrained only by the properties argsort
  guarantees (each block receives a permutation of range lcm);
* the identifier column is modelled as exact integers, mirroring the code's
  object-dtype protection of the id column around the fake-row step;
* DataFrames become lists of rows; groupby(...).ngroup() numbering,
  sorting, misfit extraction and the padded block assignment are translated
  operation by operation.
-/

namespace Stochatreat

/-! ### Probability ratio resolver (utils.py, get_lcm_prob_denominators)

Python computes Fraction(prob).limit_denominator().denominator for every
probability and takes the lcm.  limit_denominator is CPython's
Fraction.limit_denominator(max_denominator=1000000): a continued-fraction
walk producing the closest fraction with denominator at most the bound.
The loop below is a direct port working on the reduced numerator and
denominator; the fuel argument (den + 1) strictly dominates the loop
variable d, which decreases at every step, so the fuel never runs out. -/

def limit_denominator_loop (maxDen : ℕ) :
    ℕ → ℕ → ℕ → ℕ → ℕ → ℕ → ℕ → ℕ × ℕ × ℕ × ℕ
  | 0, _, _, p0, q0, p1, q1 => (p0, q0, p1, q1)
  | fuel + 1, n, d, p0, q0, p1, q1 =>
    if d = 0 then (p0, q0, p1, q1)
    else
      let a := n / d
      let q2 := q0 + a * q1
      if maxDen < q2 then (p0, q0, p1, q1)
      else limit_denominator_loop maxDen fuel d (n % d) p1 q1 (p0 + a * p1) q2

/-- Port of CPython's Fraction.limit_denominator on a reduced nonnegative
fraction num/den, returning the reduced result as a numerator/denominator
pair.  The final comparison abs(bound2 - self) <= abs(bound1 - self) is
carried out exactly by cross-multiplication with the positive denominators. -/
def limit_denominator (num den maxDen : ℕ) : ℕ × ℕ :=
  if den ≤ maxDen then (num, den)
  else
    let r := limit_denominator_loop maxDen (den + 1) num den 0 1 1 0
    let p0 := r.1
    let q0 := r.2.1
    let p1 := r.2.2.1
    let q1 := r.2.2.2
    let k := (maxDen - q0) / q1
    let pb := p0 + k * p1
    let qb := q0 + k * q1
    if ((p1 * den : ℤ) - (num * q1 : ℤ)).natAbs * qb ≤
        ((pb * den : ℤ) - (num * qb : ℤ)).natAbs * q1 then
      (p1 / Nat.gcd p1 q1, q1 / Nat.gcd p1 q1)
    else
      (pb / Nat.gcd pb qb, qb / Nat.gcd pb qb)

/-- Denominator of Fraction(p).limit_denominator() for a nonnegative
rational probability p (ℚ values are stored reduced, exactly like
Python Fractions). -/
def prob_denominator (p : ℚ) : ℕ :=
  (limit_denominator p.num.toNat p.den 1000000).2

/-- lcm of the limited denominators of all probabilities
(utils.get_lcm_prob_denominators; math.lcm folded over the list). -/
def get_lcm_prob_denominators (probs : List ℚ) : ℕ :=
  probs.foldr (fun p acc => Nat.lcm (prob_denominator p) acc) 1

/-! ### Treatment specification (treatment.py TreatmentSpec / stochatreat.py)

The treatment ids are range(treats); the mask repeats treatment id i
(lcm * probs[i]) rounded times.  numpy's round is half-to-even and the
monolithic stochatreat.py uses astype(int) truncation, but every value the
theorems touch is an exact nonnegative integer (the limited denominator of
each probability divides the lcm), where all three conventions agree; the
embedding uses rounding, as written in treatment.py. -/

def treat_mask_count (probs : List ℚ) (i : ℕ) : ℕ :=
  (round ((get_lcm_prob_denominators probs : ℚ) * probs.getD i 0)).toNat

def treat_mask (probs : List ℚ) : List ℕ :=
  (List.range probs.length).flatMap
    (fun i => List.replicate (treat_mask_count probs i) i)

/-- math.isclose(a, b, rel_tol=1e-9) with the default abs_tol of 0,
evaluated in exact arithmetic. -/
def isclose (a b : ℚ) : Prop :=
  |a - b| ≤ max (mkRat 1 1000000000 * max |a| |b|) 0

instance (a b : ℚ) : Decidable (isclose a b) := by
  unfold isclose; exact inferInstance

/-! ### Input data and preparation (preparation.py / stochatreat.py)

A raw input row has a unique identifier and a stratum value (one
stratification column; several columns form a product key and are grouped
the same way).  prepare mirrors: sort_values(by=idx_col) followed by
groupby(stratum_cols).ngroup(), which numbers the groups 0.. in sorted
order of the stratum values, and the projection to the id/stratum_id pair
of columns. -/

structure Row where
  id : ℤ
  stratum : ℤ
deriving DecidableEq

structure Assignment where
  id : ℤ
  stratum_id : ℤ
  treat : ℕ
deriving DecidableEq

def sortById (data : List Row) : List Row :=
  List.insertionSort (fun a b => a.id ≤ b.id) data

def stratum_values (data : List Row) : List ℤ :=
  List.insertionSort (· ≤ ·) (data.map Row.stratum).dedup

def prepare (data : List Row) : List (ℤ × ℤ) :=
  (sortById data).map
    (fun r => (r.id, ((stratum_values (sortById data)).indexOf r.stratum : ℤ)))

/-- The distinct stratum ids of a prepared table, in ascending order
(the order in which pandas groupby iterates groups). -/
def stratum_ids (prep : List (ℤ × ℤ)) : List ℤ :=
  List.insertionSort (· ≤ ·) (prep.map Prod.snd).dedup

/-- Group a prepared table by stratum id: for every stratum id in
ascending order, the ids of its rows in table order.  After the assigner
pads every group to a multiple of the block size, this grouping is exactly
the contiguous run structure produced by the stable sort on stratum_id. -/
def groupByStratum (prep : List (ℤ × ℤ)) : List (ℤ × List ℤ) :=
  (stratum_ids prep).map
    (fun s => (s, (prep.filter (fun x => decide (x.2 = s))).map Prod.fst))

/-! ### Misfit extraction (misfit.py)

extract_misfits attaches one uniform draw per row, sorts by
(stratum_id, draw) and marks the rows of within-stratum rank below
(stratum size mod lcm) as misfits.  Selecting the rows of rank below k
within a stratum is the same as taking the first k rows of that stratum in
the sorted order, so the embedding takes/drops on the per-stratum slices
of the sorted list; good rows and misfit rows are each returned in sorted
(stratum, draw) order exactly as in the source. -/

def lexLt (a b : (ℤ × ℤ) × ℚ) : Prop :=
  a.1.2 < b.1.2 ∨ (a.1.2 = b.1.2 ∧ a.2 ≤ b.2)

instance : DecidableRel lexLt := fun a b => by
  unfold lexLt; exact inferInstance

def extract_misfits (prep : List (ℤ × ℤ)) (L : ℕ) (keys : List ℚ) :
    List (ℤ × ℤ) × List (ℤ × ℤ) :=
  let sorted := List.insertionSort lexLt (prep.zip keys)
  let parts := (stratum_ids prep).map (fun s =>
    let grp := (sorted.filter (fun x => decide (x.1.2 = s))).map Prod.fst
    (grp.drop (grp.length % L), grp.take (grp.length % L)))
  ((parts.map Prod.fst).flatten, (parts.map Prod.snd).flatten)

/-- Within-stratum relative position of an id among its stratum's rows in
prepared-table order; used to state the cross-strata independence of the
misfit draw. -/
def relative_position (prep : List (ℤ × ℤ)) (x : ℤ × ℤ) : ℕ :=
  ((prep.filter (fun y => decide (y.2 = x.2))).map Prod.fst).indexOf x.1

/-! ### Misfit strategies (misfit.py handlers, stochatreat.py orchestration)

stratum: identity.  global: misfits from every stratum are pooled under
the sentinel stratum id -1 and appended after the good-form rows; the
none strategy of misfit.py (nullable stratum ids) is not exercised by any
claim and is not modelled. -/

inductive MisfitStrategy | stratum | global
deriving DecidableEq

def rearranged (strategy : MisfitStrategy) (prep : List (ℤ × ℤ)) (L : ℕ)
    (keys : List ℚ) : List (ℤ × ℤ) :=
  match strategy with
  | .stratum => prep
  | .global =>
    let gm := extract_misfits prep L keys
    gm.1 ++ gm.2.map (fun x => (x.1, -1))

/-! ### Permutation assigner (treatment.py TreatmentAssigner.assign)

Every stratum is padded with (lcm - n mod lcm) mod lcm fake rows, the
combined table is stable-sorted by stratum_id (so within a stratum the
real rows precede the fake rows and every block of lcm consecutive rows
lies in one stratum), each block is labelled with the treatment mask
permuted by that block's argsort permutation, and the fake rows are
dropped, leaving the first n labels of the stratum for its real rows. -/

def pad_count (L n : ℕ) : ℕ := (L - n % L) % L

def num_blocks (L n : ℕ) : ℕ := (n + pad_count L n) / L

def block_labels (mask : List ℕ) (p : List ℕ) : List ℕ :=
  p.map (fun j => mask.getD j 0)

def stratum_treats (mask : List ℕ) (L : ℕ) (perms : ℕ → List ℕ)
    (b0 n : ℕ) : List ℕ :=
  (((List.range (num_blocks L n)).map
    (fun j => block_labels mask (perms (b0 + j)))).flatten).take n

def assign_groups (mask : List ℕ) (L : ℕ) (perms : ℕ → List ℕ) :
    ℕ → List (ℤ × List ℤ) → List Assignment
  | _, [] => []
  | b0, (s, ids) :: rest =>
    (ids.zip (stratum_treats mask L perms b0 ids.length)).map
      (fun x => ⟨x.1, s, x.2⟩)
      ++ assign_groups mask L perms (b0 + num_blocks L ids.length) rest

/-- The permutation oracle is sound for block size L: every block receives
a permutation of range L (what argsort of a row of L uniform draws
produces). -/
def ValidPerms (L : ℕ) (perms : ℕ → List ℕ) : Prop :=
  ∀ b, (perms b).Perm (List.range L)

/-! ### Orchestration (stochatreat.py stochatreat) -/

def stochatreatRun (strategy : MisfitStrategy) (probs : List ℚ)
    (keys : List ℚ) (perms : ℕ → List ℕ) (data : List Row) :
    List Assignment :=
  let L := get_lcm_prob_denominators probs
  assign_groups (treat_mask probs) L perms 0
    (groupByStratum (rearranged strategy (prepare data) L keys))

/-- Error conditions surfaced by the eager validation, in source order
(probability validation precedes the data checks). -/
inductive StochErr | invalidProbs | emptyData | tooFewRows | duplicateIds
deriving DecidableEq

def validateData (data : List Row) : Option StochErr :=
  if data = [] then some .emptyData
  else if data.length < 2 then some .tooFewRows
  else if ¬ (data.map Row.id).Nodup then some .duplicateIds
  else none

def validate (data : List Row) (treats : ℕ) (probs? : Option (List ℚ)) :
    Option StochErr :=
  match probs? with
  | some probs =>
    if ¬ isclose probs.sum 1 then some .invalidProbs
    else if probs.length ≠ treats then some .invalidProbs
    else validateData data
  | none => validateData data

def resolve_probs (treats : ℕ) (probs? : Option (List ℚ)) : List ℚ :=
  match probs? with
  | some probs => probs
  | none => List.replicate treats ((1 : ℚ) / treats)

/-- The full call: eager validation (no randomness consumed, no partial
output on failure), then the assignment pipeline.  size=None and a
supplied idx_col are assumed, matching every claim scenario. -/
def stochatreat (data : List Row) (treats : ℕ) (probs? : Option (List ℚ))
    (strategy : MisfitStrategy) (keys : List ℚ) (perms : ℕ → List ℕ) :
    Except StochErr (List Assignment) :=
  match validate data treats probs? with
  | some e => .error e
  | none =>
    .ok (stochatreatRun strategy (resolve_probs treats probs?) keys perms data)

/-- Number of output rows of stratum s assigned to arm t. -/
def arm_count (out : List Assignment) (s : ℤ) (t : ℕ) : ℕ :=
  out.countP (fun r => decide (r.stratum_id = s ∧ r.treat = t))

/-! ### Frame effects on the caller's DataFrame (stochatreat.py lines 128-263)

To state that the call never mutates the caller's DataFrame we track the
heap of DataFrame objects explicitly.  Each pandas operation the source
performs either returns a fresh object (sort_values, the double-bracket
column selection with .copy(), boolean-mask filtering with drop; their
documented semantics) or assigns columns in place on its receiver
(df[col] = ..., df.loc[:, col] = ..., performed at lines 158, 243-244,
257, 261, 263 of the source).  The table contents are abstract: every
operation is an arbitrary function on tables, so the only information the
model carries is which object each operation targets, in source order. -/

structure Heap (τ : Type) where
  mem : ℕ → τ
  next : ℕ

def Heap.alloc {τ : Type} (h : Heap τ) (v : τ) : Heap τ × ℕ :=
  (⟨fun r => if r = h.next then v else h.mem r, h.next + 1⟩, h.next)

def Heap.mutate {τ : Type} (h : Heap τ) (r : ℕ) (f : τ → τ) : Heap τ :=
  ⟨fun r' => if r' = r then f (h.mem r) else h.mem r', h.next⟩

/-- One pandas operation on the current DataFrame: either it returns a
fresh object computed from the current one (sort_values, reset_index,
the double-bracket selection with .copy(), concat, boolean filtering with
drop — per their documented copy semantics), or it assigns columns in
place on the current object (df[col] = ..., df.loc[:, col] = ...). -/
inductive FrameOp (τ : Type)
  | copyFrom (f : τ → τ)
  | inplace (f : τ → τ)

def runOps {τ : Type} : List (FrameOp τ) → Heap τ → ℕ → Heap τ × ℕ
  | [], h, cur => (h, cur)
  | .copyFrom f :: rest, h, cur =>
    runOps rest (h.alloc (f (h.mem cur))).1 (h.alloc (f (h.mem cur))).2
  | .inplace f :: rest, h, cur => runOps rest (h.mutate cur f) cur

/-- The DataFrame operations the stochatreat body performs on its data
path, in source order (stochatreat.py lines 155-263).  The table contents
are abstract: each operation carries an arbitrary function on tables, so
the model tracks only which object every operation targets. -/
def stochatreat_frame_ops {τ : Type}
    (sortValues ngroupCol selectCopy astypeObject fakeCol concatSort
      treatCol dropFake astypeBack astypeTreat : τ → τ) :
    List (FrameOp τ) :=
  [
   -- sort_values by the id column: returns a fresh object
   .copyFrom sortValues,
   -- assignment of the stratum_id column from groupby ngroup: in place
   .inplace ngroupCol,
   -- double-bracket selection of id and stratum_id columns with copy:
   -- returns a fresh object
   .copyFrom selectCopy,
   -- astype object assignment protecting the id column: in place
   .inplace astypeObject,
   -- assignment of the fake marker column via loc: in place
   .inplace fakeCol,
   -- concat with the fake rows then sort_values by stratum_id: returns
   -- a fresh object
   .copyFrom concatSort,
   -- assignment of the treat column via loc: in place
   .inplace treatCol,
   -- boolean filtering of the fake rows and drop of the fake column:
   -- returns a fresh object
   .copyFrom dropFake,
   -- astype assignment restoring the original id dtype: in place
   .inplace astypeBack,
   -- astype int64 assignment of the treat column: in place
   .inplace astypeTreat]

/-- Run the stochatreat body's DataFrame operations on an initial heap in
which the caller's DataFrame lives at reference `caller`; returns the
final heap and the reference holding the returned DataFrame. -/
def stochatreat_frames {τ : Type}
    (sortValues ngroupCol selectCopy astypeObject fakeCol concatSort
      treatCol dropFake astypeBack astypeTreat : τ → τ)
    (h : Heap τ) (caller : ℕ) : Heap τ × ℕ :=
  runOps (stochatreat_frame_ops sortValues ngroupCol selectCopy
    astypeObject fakeCol concatSort treatCol dropFake astypeBack
      astypeTreat) h caller

/-! ### Concrete inputs used by the claim scenarios -/

/-- The literal scenario input: ids 1..9 with strata of sizes 5 and 4. -/
def data9 : List Row :=
  [⟨1, 0⟩, ⟨2, 0⟩, ⟨3, 0⟩, ⟨4, 0⟩, ⟨5, 0⟩, ⟨6, 1⟩, ⟨7, 1⟩, ⟨8, 1⟩, ⟨9, 1⟩]

/-- The exact value of the IEEE-754 double written 0.142857 (what
Fraction(0.142857) sees): 643370731967267 / 2^52. -/
def float_0_142857 : ℚ := mkRat 643370731967267 4503599627370496

/-- The exact value of the IEEE-754 double closest to 1/7 (what
Fraction(1/7) sees): 2573485501354569 / 2^54. -/
def float_one_seventh : ℚ := mkRat 2573485501354569 18014398509481984

/-! ### Helper lemmas: block-size arithmetic -/

lemma dvd_add_pad (L n : ℕ) (hL : 0 < L) : L ∣ n + pad_count L n := by
  unfold pad_count
  rcases Nat.eq_zero_or_pos (n % L) with h | h
  · rw [h, Nat.sub_zero, Nat.mod_self, Nat.add_zero]
    exact Nat.dvd_of_mod_eq_zero h
  · have hlt : n % L < L := Nat.mod_lt _ hL
    have hsub : (L - n % L) % L = L - n % L :=
      Nat.mod_eq_of_lt (by omega)
    rw [hsub]
    refine ⟨n / L + 1, ?_⟩
    have hdm := Nat.div_add_mod n L
    rw [Nat.mul_add, Nat.mul_one]
    omega

lemma num_blocks_mul (L n : ℕ) (hL : 0 < L) :
    num_blocks L n * L = n + pad_count L n := by
  unfold num_blocks
  exact Nat.div_mul_cancel (dvd_add_pad L n hL)

lemma num_blocks_of_mod_eq_zero (L n : ℕ) (h : n % L = 0) :
    num_blocks L n = n / L := by
  unfold num_blocks pad_count
  rw [h, Nat.sub_zero, Nat.mod_self, Nat.add_zero]

lemma num_blocks_of_mod_ne_zero (L n : ℕ) (hL : 0 < L) (h : n % L ≠ 0) :
    num_blocks L n = n / L + 1 := by
  unfold num_blocks pad_count
  have hlt : n % L < L := Nat.mod_lt _ hL
  have hsub : (L - n % L) % L = L - n % L := Nat.mod_eq_of_lt (by omega)
  rw [hsub]
  have hdm := Nat.div_add_mod n L
  have hnum : n + (L - n % L) = (n / L + 1) * L := by
    rw [Nat.add_mul, Nat.one_mul, Nat.mul_comm]
    omega
  rw [hnum, Nat.mul_div_cancel _ hL]

lemma map_getD_range {α : Type} (l : List α) (d : α) :
    (List.range l.length).map (fun j => l.getD j d) = l := by
  induction l with
  | nil => simp
  | cons a tl ih =>
    have hc : ((fun j => (a :: tl).getD j d) ∘ Nat.succ) =
        fun j => tl.getD j d := by
      funext j
      simp
    rw [List.length_cons, List.range_succ_eq_map, List.map_cons,
      List.map_map, hc, ih, List.getD_cons_zero]

/-! ### Helper lemmas: the probability resolver and the treatment mask -/

lemma prob_denominator_of_den_le (p : ℚ) (h : p.den ≤ 1000000) :
    prob_denominator p = p.den := by
  unfold prob_denominator limit_denominator
  rw [if_pos h]

lemma prob_denominator_dvd (probs : List ℚ) (p : ℚ) (hp : p ∈ probs) :
    prob_denominator p ∣ get_lcm_prob_denominators probs := by
  induction probs with
  | nil => cases hp
  | cons q tl ih =>
    unfold get_lcm_prob_denominators
    rcases List.mem_cons.mp hp with h | h
    · subst h
      exact Nat.dvd_lcm_left _ _
    · exact dvd_trans (ih h) (Nat.dvd_lcm_right _ _)

lemma den_dvd_lcm (probs : List ℚ) (p : ℚ) (hp : p ∈ probs)
    (hden : p.den ≤ 1000000) :
    (p.den : ℕ) ∣ get_lcm_prob_denominators probs := by
  have := prob_denominator_dvd probs p hp
  rwa [prob_denominator_of_den_le p hden] at this

lemma get_lcm_pos (probs : List ℚ)
    (hden : ∀ p ∈ probs, p.den ≤ 1000000) :
    0 < get_lcm_prob_denominators probs := by
  induction probs with
  | nil => exact Nat.one_pos
  | cons q tl ih =>
    unfold get_lcm_prob_denominators
    have hq : prob_denominator q = q.den :=
      prob_denominator_of_den_le q (hden q (List.mem_cons_self q tl))
    refine Nat.lcm_pos ?_ (ih fun p hp => hden p (List.mem_cons_of_mem _ hp))
    rw [hq]
    exact q.pos

lemma den_mul_self (p : ℚ) : (p.den : ℚ) * p = (p.num : ℚ) :=
  Rat.den_mul_eq_num p

lemma cast_mul_int (p : ℚ) (L : ℕ) (h : (p.den : ℕ) ∣ L) :
    (L : ℚ) * p = (((L / p.den : ℕ) : ℤ) * p.num : ℤ) := by
  obtain ⟨m, hm⟩ := h
  have hmd : L / p.den = m := by
    rw [hm, Nat.mul_div_cancel_left _ (Rat.den_pos p)]
  rw [hmd, hm]
  push_cast
  rw [mul_comm (p.den : ℚ) (m : ℚ), mul_assoc, den_mul_self]

lemma round_cast_of_den_dvd (p : ℚ) (L : ℕ) (h : (p.den : ℕ) ∣ L)
    (hp : 0 ≤ p) : ((round ((L : ℚ) * p)).toNat : ℚ) = (L : ℚ) * p := by
  rw [cast_mul_int p L h, round_intCast]
  have hnn : 0 ≤ ((L / p.den : ℕ) : ℤ) * p.num :=
    mul_nonneg (Int.ofNat_nonneg _) (Rat.num_nonneg.mpr hp)
  exact_mod_cast congrArg (fun z : ℤ => (z : ℚ)) (Int.toNat_of_nonneg hnn)

lemma treat_mask_count_cast (probs : List ℚ) (i : ℕ)
    (hi : i < probs.length)
    (hnn : ∀ p ∈ probs, 0 ≤ p) (hden : ∀ p ∈ probs, p.den ≤ 1000000) :
    ((treat_mask_count probs i : ℕ) : ℚ) =
      (get_lcm_prob_denominators probs : ℚ) * probs.getD i 0 := by
  unfold treat_mask_count
  have hmem : probs.getD i 0 ∈ probs := by
    rw [List.getD_eq_getElem?_getD, List.getElem?_eq_getElem hi]
    exact List.getElem_mem _
  exact round_cast_of_den_dvd _ _
    (den_dvd_lcm probs _ hmem (hden _ hmem)) (hnn _ hmem)

lemma treat_mask_count_oob (probs : List ℚ) (i : ℕ)
    (hi : probs.length ≤ i) : treat_mask_count probs i = 0 := by
  unfold treat_mask_count
  rw [List.getD_eq_getElem?_getD, List.getElem?_eq_none hi]
  simp

lemma sum_range_ite (k i : ℕ) (c : ℕ → ℕ) :
    ((List.range k).map (fun j => if j = i then c j else 0)).sum =
      if i < k then c i else 0 := by
  induction k with
  | zero => simp
  | succ k ih =>
    rw [List.range_succ, List.map_append, List.sum_append, ih]
    by_cases h1 : i < k
    · have : k ≠ i := by omega
      simp [h1, this, Nat.lt_succ_of_lt h1]
    · by_cases h2 : k = i
      · subst h2
        simp [h1]
      · have : ¬ i < k + 1 := by omega
        simp [h1, h2, this]

lemma count_treat_mask (probs : List ℚ) (i : ℕ) :
    List.count i (treat_mask probs) =
      if i < probs.length then treat_mask_count probs i else 0 := by
  unfold treat_mask
  rw [List.count_flatMap]
  have h : ∀ j ∈ List.range probs.length,
      (List.count i ∘ fun j => List.replicate (treat_mask_count probs j) j) j
        = if j = i then treat_mask_count probs j else 0 := by
    intro j _
    simp [List.count_replicate]
  rw [List.map_congr_left h]
  exact sum_range_ite _ _ _

lemma treat_mask_length (probs : List ℚ)
    (hnn : ∀ p ∈ probs, 0 ≤ p) (hden : ∀ p ∈ probs, p.den ≤ 1000000)
    (hsum : probs.sum = 1) :
    (treat_mask probs).length = get_lcm_prob_denominators probs := by
  have hq : (((treat_mask probs).length : ℕ) : ℚ) =
      ((get_lcm_prob_denominators probs : ℕ) : ℚ) := by
    unfold treat_mask
    rw [List.length_flatMap]
    have h1 : ∀ j ∈ List.range probs.length,
        (List.length ∘ fun i => List.replicate (treat_mask_count probs i) i) j
          = treat_mask_count probs j := by
      intro j _
      simp
    rw [List.map_congr_left h1, Nat.cast_list_sum, List.map_map]
    have h2 : ∀ j ∈ List.range probs.length,
        ((Nat.cast : ℕ → ℚ) ∘ treat_mask_count probs) j =
          (get_lcm_prob_denominators probs : ℚ) * probs.getD j 0 := by
      intro j hj
      exact treat_mask_count_cast probs j (List.mem_range.mp hj) hnn hden
    rw [List.map_congr_left h2, List.sum_map_mul_left, map_getD_range, hsum,
      mul_one]
  exact_mod_cast hq

/-! ### Helper lemmas: block labelling and per-stratum treatment counts -/

lemma block_labels_perm (mask : List ℕ) (L : ℕ) (hm : mask.length = L)
    (p : List ℕ) (hp : p.Perm (List.range L)) :
    (block_labels mask p).Perm mask := by
  unfold block_labels
  have h := hp.map (fun j => mask.getD j 0)
  rw [← hm, map_getD_range] at h
  exact h

lemma block_labels_length (mask : List ℕ) (L : ℕ) (hm : mask.length = L)
    (p : List ℕ) (hp : p.Perm (List.range L)) :
    (block_labels mask p).length = L :=
  ((block_labels_perm mask L hm p hp).length_eq).trans hm

lemma blocks_flatten_length (mask : List ℕ) (L : ℕ) (hm : mask.length = L)
    (f : ℕ → List ℕ) (hf : ∀ j, (f j).Perm (List.range L)) (k : ℕ) :
    (((List.range k).map (fun j => block_labels mask (f j))).flatten).length
      = k * L := by
  induction k with
  | zero => simp
  | succ k ih =>
    rw [List.range_succ, List.map_append, List.flatten_append,
      List.length_append, ih]
    simp only [List.map_cons, List.map_nil, List.flatten_cons,
      List.flatten_nil, List.append_nil]
    rw [block_labels_length mask L hm _ (hf k)]
    ring

lemma count_blocks (mask : List ℕ) (L : ℕ) (hm : mask.length = L)
    (f : ℕ → List ℕ) (hf : ∀ j, (f j).Perm (List.range L)) (k i : ℕ) :
    List.count i (((List.range k).map
        (fun j => block_labels mask (f j))).flatten) =
      k * List.count i mask := by
  induction k with
  | zero => simp
  | succ k ih =>
    rw [List.range_succ, List.map_append, List.flatten_append,
      List.count_append, ih]
    simp only [List.map_cons, List.map_nil, List.flatten_cons,
      List.flatten_nil, List.append_nil]
    rw [(block_labels_perm mask L hm _ (hf k)).count_eq]
    ring

lemma stratum_treats_length (mask : List ℕ) (L : ℕ)
    (perms : ℕ → List ℕ) (b0 n : ℕ) (hm : mask.length = L) (hL : 0 < L)
    (hperms : ValidPerms L perms) :
    (stratum_treats mask L perms b0 n).length = n := by
  unfold stratum_treats
  rw [List.length_take,
    blocks_flatten_length mask L hm (fun j => perms (b0 + j))
      (fun j => hperms (b0 + j)) (num_blocks L n),
    num_blocks_mul L n hL]
  exact Nat.min_eq_left (Nat.le_add_right n _)

lemma count_stratum_treats (mask : List ℕ) (L : ℕ) (perms : ℕ → List ℕ)
    (b0 n i : ℕ) (hm : mask.length = L) (hL : 0 < L)
    (hperms : ValidPerms L perms) :
    ∃ r ≤ n % L,
      List.count i (stratum_treats mask L perms b0 n) =
        n / L * List.count i mask + r := by
  unfold stratum_treats
  rcases Nat.eq_zero_or_pos (n % L) with h | h
  · refine ⟨0, Nat.zero_le _, ?_⟩
    rw [num_blocks_of_mod_eq_zero L n h]
    have hlen := blocks_flatten_length mask L hm (fun j => perms (b0 + j))
      (fun j => hperms (b0 + j)) (n / L)
    have hdl : n / L * L = n := Nat.div_mul_cancel (Nat.dvd_of_mod_eq_zero h)
    rw [List.take_of_length_le (le_of_eq (by rw [hlen, hdl])),
      count_blocks mask L hm (fun j => perms (b0 + j))
        (fun j => hperms (b0 + j)) (n / L) i, Nat.add_zero]
  · rw [num_blocks_of_mod_ne_zero L n hL (by omega), List.range_succ,
      List.map_append, List.flatten_append]
    simp only [List.map_cons, List.map_nil, List.flatten_cons,
      List.flatten_nil, List.append_nil]
    have hfl := blocks_flatten_length mask L hm (fun j => perms (b0 + j))
      (fun j => hperms (b0 + j)) (n / L)
    rw [List.take_append_eq_append_take, List.count_append,
      List.take_of_length_le (by rw [hfl]; exact Nat.div_mul_le_self n L),
      count_blocks mask L hm (fun j => perms (b0 + j))
        (fun j => hperms (b0 + j)) (n / L) i]
    refine ⟨_, ?_, rfl⟩
    refine le_trans (List.count_le_length _ _) ?_
    rw [List.length_take]
    refine le_trans (Nat.min_le_left _ _) ?_
    rw [hfl]
    have h3 : n / L * L + n % L = n := by
      rw [Nat.mul_comm]
      exact Nat.div_add_mod n L
    omega


/-! ### Helper lemmas: counting assignments per stratum segment -/

lemma countP_decide_eq_count (t : ℕ) (ts : List ℕ) :
    ts.countP (fun y => decide (y = t)) = List.count t ts := by
  rw [List.count_eq_countP]
  refine List.countP_congr ?_
  intro y _
  simp

lemma countP_seg_ne (ids : List ℤ) (ts : List ℕ) (s' s : ℤ) (t : ℕ)
    (hne : s' ≠ s) :
    ((ids.zip ts).map
      (fun x => Assignment.mk x.1 s' x.2)).countP
        (fun r => decide (r.stratum_id = s ∧ r.treat = t)) = 0 := by
  rw [List.countP_eq_zero]
  intro a ha
  rcases List.mem_map.mp ha with ⟨x, _, rfl⟩
  simp [hne]

lemma countP_seg_eq (ids : List ℤ) (ts : List ℕ) (s' : ℤ) (t : ℕ) :
    ((ids.zip ts).map
      (fun x => Assignment.mk x.1 s' x.2)).countP
        (fun r => decide (r.stratum_id = s' ∧ r.treat = t)) =
      (ts.take ids.length).countP (fun y => decide (y = t)) := by
  rw [List.countP_map]
  have h1 : ∀ x ∈ ids.zip ts,
      ((fun r : Assignment => decide (r.stratum_id = s' ∧ r.treat = t)) ∘
        (fun x : ℤ × ℕ => Assignment.mk x.1 s' x.2)) x = true ↔
        ((fun y : ℕ => decide (y = t)) ∘ Prod.snd) x = true := by
    intro x _
    simp
  rw [List.countP_congr h1, ← List.countP_map]
  congr 1
  induction ids generalizing ts with
  | nil => simp
  | cons a tl ih =>
    cases ts with
    | nil => simp
    | cons b tb => simp [ih]

lemma arm_count_assign_groups_not_mem (mask : List ℕ) (L : ℕ)
    (perms : ℕ → List ℕ) :
    ∀ (groups : List (ℤ × List ℤ)) (b0 : ℕ) (s : ℤ) (t : ℕ),
      s ∉ groups.map Prod.fst →
      arm_count (assign_groups mask L perms b0 groups) s t = 0 := by
  intro groups
  induction groups with
  | nil =>
    intro b0 s t _
    rfl
  | cons g rest ih =>
    intro b0 s t hs
    obtain ⟨s', ids'⟩ := g
    rw [List.map_cons, List.mem_cons] at hs
    push_neg at hs
    show ((ids'.zip _).map _ ++
      assign_groups mask L perms _ rest).countP _ = 0
    rw [List.countP_append, countP_seg_ne _ _ _ _ _ (Ne.symm hs.1),
      Nat.zero_add]
    exact ih _ s t hs.2

lemma arm_count_assign_groups (mask : List ℕ) (L : ℕ)
    (perms : ℕ → List ℕ) (hm : mask.length = L) (hL : 0 < L)
    (hperms : ValidPerms L perms) :
    ∀ (groups : List (ℤ × List ℤ)) (b0 : ℕ) (s : ℤ) (ids : List ℤ) (t : ℕ),
      (groups.map Prod.fst).Nodup → (s, ids) ∈ groups →
      ∃ b, arm_count (assign_groups mask L perms b0 groups) s t =
        List.count t (stratum_treats mask L perms b ids.length) := by
  intro groups
  induction groups with
  | nil =>
    intro _ _ _ _ _ hmem
    cases hmem
  | cons g rest ih =>
    intro b0 s ids t hnd hmem
    obtain ⟨s', ids'⟩ := g
    rw [List.map_cons, List.nodup_cons] at hnd
    rcases List.mem_cons.mp hmem with heq | hrest
    · rw [Prod.mk.injEq] at heq
      obtain ⟨rfl, rfl⟩ := heq
      refine ⟨b0, ?_⟩
      show ((ids.zip _).map _ ++
        assign_groups mask L perms _ rest).countP _ =
          List.count t (stratum_treats mask L perms b0 ids.length)
      rw [List.countP_append]
      have hrest0 : arm_count
          (assign_groups mask L perms (b0 + num_blocks L ids.length) rest)
            s t = 0 :=
        arm_count_assign_groups_not_mem mask L perms rest _ s t hnd.1
      rw [show (assign_groups mask L perms (b0 + num_blocks L ids.length)
          rest).countP
            (fun r => decide (r.stratum_id = s ∧ r.treat = t)) = 0 from
        hrest0]
      rw [countP_seg_eq, Nat.add_zero]
      have hlen : (stratum_treats mask L perms b0 ids.length).length ≤
          ids.length :=
        le_of_eq (stratum_treats_length mask L perms b0 ids.length hm hL
          hperms)
      rw [List.take_of_length_le hlen, countP_decide_eq_count]
    · have hs : s' ≠ s := by
        intro he
        apply hnd.1
        rw [he]
        exact (List.mem_map).mpr ⟨(s, ids), hrest, rfl⟩
      obtain ⟨b, hb⟩ := ih (b0 + num_blocks L ids'.length) s ids t hnd.2 hrest
      refine ⟨b, ?_⟩
      show ((ids'.zip _).map _ ++
        assign_groups mask L perms _ rest).countP _ =
          List.count t (stratum_treats mask L perms b ids.length)
      rw [List.countP_append, countP_seg_ne _ _ _ _ _ hs, Nat.zero_add]
      exact hb

lemma assign_groups_map_id (mask : List ℕ) (L : ℕ) (perms : ℕ → List ℕ)
    (hm : mask.length = L) (hL : 0 < L) (hperms : ValidPerms L perms) :
    ∀ (groups : List (ℤ × List ℤ)) (b0 : ℕ),
      (assign_groups mask L perms b0 groups).map Assignment.id =
        (groups.map (fun g => g.2)).flatten := by
  intro groups
  induction groups with
  | nil =>
    intro _
    rfl
  | cons g rest ih =>
    intro b0
    obtain ⟨s', ids'⟩ := g
    show ((ids'.zip (stratum_treats mask L perms b0 ids'.length)).map _ ++
      assign_groups mask L perms _ rest).map Assignment.id = _
    rw [List.map_append, List.map_map, ih, List.map_cons, List.flatten_cons]
    congr 1
    have hcomp : (Assignment.id ∘ fun x : ℤ × ℕ => Assignment.mk x.1 s' x.2)
        = Prod.fst := rfl
    rw [hcomp]
    refine List.map_fst_zip _ _ ?_
    rw [stratum_treats_length mask L perms b0 ids'.length hm hL hperms]

/-! ### Helper lemmas: grouping a table by its stratum ids -/

lemma flatten_filter_key_perm {α : Type} (key : α → ℤ) :
    ∀ (ks : List ℤ) (l : List α), ks.Nodup → (∀ x ∈ l, key x ∈ ks) →
    ((ks.map (fun s => l.filter (fun x => decide (key x = s)))).flatten).Perm
      l := by
  intro ks
  induction ks with
  | nil =>
    intro l _ hcov
    have hl : l = [] :=
      List.eq_nil_iff_forall_not_mem.mpr (fun x hx => by
        simpa using hcov x hx)
    subst hl
    exact List.Perm.refl _
  | cons s rest ih =>
    intro l hnd hcov
    rw [List.map_cons, List.flatten_cons]
    have hs : s ∉ rest := (List.nodup_cons.mp hnd).1
    have hnd' : rest.Nodup := (List.nodup_cons.mp hnd).2
    have hmapeq : rest.map (fun s' => l.filter (fun x => decide (key x = s')))
        = rest.map (fun s' => (l.filter (fun x => ! decide (key x = s))).filter
            (fun x => decide (key x = s'))) := by
      refine List.map_congr_left ?_
      intro s' hs'
      have hne : s' ≠ s := fun he => hs (he ▸ hs')
      rw [List.filter_filter]
      refine (List.filter_congr ?_).symm
      intro x _
      by_cases h : key x = s'
      · simp [h, hne]
      · simp [h]
    rw [hmapeq]
    have hcov' : ∀ x ∈ l.filter (fun x => ! decide (key x = s)),
        key x ∈ rest := by
      intro x hx
      have hx' := List.mem_filter.mp hx
      rcases List.mem_cons.mp (hcov x hx'.1) with h | h
      · exfalso
        have := hx'.2
        simp [h] at this
      · exact h
    have ih' := ih (l.filter (fun x => ! decide (key x = s))) hnd' hcov'
    exact List.Perm.trans (List.Perm.append_left _ ih')
      (List.filter_append_perm _ l)

lemma stratum_ids_nodup (prep : List (ℤ × ℤ)) : (stratum_ids prep).Nodup := by
  unfold stratum_ids
  exact ((List.perm_insertionSort _ _).nodup_iff).mpr (List.nodup_dedup _)

lemma mem_stratum_ids (prep : List (ℤ × ℤ)) (x : ℤ × ℤ) (hx : x ∈ prep) :
    x.2 ∈ stratum_ids prep := by
  unfold stratum_ids
  rw [List.mem_insertionSort]
  exact List.mem_dedup.mpr (List.mem_map_of_mem Prod.snd hx)

lemma groupByStratum_keys_nodup (prep : List (ℤ × ℤ)) :
    ((groupByStratum prep).map Prod.fst).Nodup := by
  unfold groupByStratum
  rw [List.map_map]
  have hcomp : (Prod.fst ∘ fun s =>
      ((s, (prep.filter (fun x => decide (x.2 = s))).map Prod.fst) :
        ℤ × List ℤ)) = id := rfl
  rw [hcomp, List.map_id]
  exact stratum_ids_nodup prep

lemma groupByStratum_flatten_perm (prep : List (ℤ × ℤ)) :
    (((groupByStratum prep).map (fun g => g.2)).flatten).Perm
      (prep.map Prod.fst) := by
  unfold groupByStratum
  rw [List.map_map]
  have hcomp : ((fun g : ℤ × List ℤ => g.2) ∘ fun s =>
      ((s, (prep.filter (fun x => decide (x.2 = s))).map Prod.fst) :
        ℤ × List ℤ)) =
      (List.map Prod.fst ∘ fun s => prep.filter (fun x => decide (x.2 = s)))
      := rfl
  rw [hcomp, ← List.map_map, ← List.map_flatten]
  exact (flatten_filter_key_perm Prod.snd (stratum_ids prep) prep
    (stratum_ids_nodup prep) (fun x hx => mem_stratum_ids prep x hx)).map
      Prod.fst

/-! ### Helper lemmas: the misfit extraction preserves the rows -/

lemma flatten_fst_append_snd {α : Type} (parts : List (List α × List α)) :
    ((parts.map Prod.fst).flatten ++ (parts.map Prod.snd).flatten).Perm
      ((parts.map (fun pr => pr.1 ++ pr.2)).flatten) := by
  induction parts with
  | nil => simp
  | cons pr rest ih =>
    simp only [List.map_cons, List.flatten_cons]
    have hmid : ((rest.map Prod.fst).flatten ++
        (pr.2 ++ (rest.map Prod.snd).flatten)).Perm
          (pr.2 ++ (rest.map (fun pr => pr.1 ++ pr.2)).flatten) := by
      refine List.Perm.trans ?_ (List.Perm.append_left pr.2 ih)
      rw [← List.append_assoc, ← List.append_assoc]
      exact List.Perm.append_right _ List.perm_append_comm
    rw [List.append_assoc, List.append_assoc]
    exact List.Perm.append_left pr.1 hmid

lemma flatten_map_perm {α β : Type} (ks : List β) (f g : β → List α)
    (h : ∀ s ∈ ks, (f s).Perm (g s)) :
    ((ks.map f).flatten).Perm ((ks.map g).flatten) := by
  induction ks with
  | nil => simp
  | cons s rest ih =>
    simp only [List.map_cons, List.flatten_cons]
    exact (h s (List.mem_cons_self s rest)).append
      (ih (fun s' hs' => h s' (List.mem_cons_of_mem _ hs')))

lemma extract_misfits_perm (prep : List (ℤ × ℤ)) (L : ℕ) (keys : List ℚ)
    (hk : prep.length ≤ keys.length) :
    ((extract_misfits prep L keys).1 ++ (extract_misfits prep L keys).2).Perm
      prep := by
  unfold extract_misfits
  refine List.Perm.trans (flatten_fst_append_snd _) ?_
  rw [List.map_map]
  have hstep : ∀ s ∈ stratum_ids prep,
      (((fun pr : List (ℤ × ℤ) × List (ℤ × ℤ) => pr.1 ++ pr.2) ∘ fun s =>
        (let grp := ((List.insertionSort lexLt (prep.zip keys)).filter
            (fun x => decide (x.1.2 = s))).map Prod.fst
         (grp.drop (grp.length % L), grp.take (grp.length % L)))) s).Perm
        (((List.insertionSort lexLt (prep.zip keys)).filter
          (fun x => decide (x.1.2 = s))).map Prod.fst) := by
    intro s _
    show (List.drop _ _ ++ List.take _ _).Perm _
    refine List.Perm.trans List.perm_append_comm ?_
    rw [List.take_append_drop]
  refine List.Perm.trans (flatten_map_perm _ _ _ hstep) ?_
  have hmf : (stratum_ids prep).map (fun s =>
      ((List.insertionSort lexLt (prep.zip keys)).filter
        (fun x => decide (x.1.2 = s))).map Prod.fst) =
      (stratum_ids prep).map (List.map Prod.fst ∘ fun s =>
        (List.insertionSort lexLt (prep.zip keys)).filter
          (fun x => decide (x.1.2 = s))) := rfl
  rw [hmf, ← List.map_map, ← List.map_flatten]
  have hpart := flatten_filter_key_perm (fun x : (ℤ × ℤ) × ℚ => x.1.2)
    (stratum_ids prep) (List.insertionSort lexLt (prep.zip keys))
    (stratum_ids_nodup prep)
    (fun x hx => by
      have hx1 : x ∈ prep.zip keys := (List.mem_insertionSort lexLt).mp hx
      exact mem_stratum_ids prep x.1 (List.of_mem_zip hx1).1)
  refine List.Perm.trans (hpart.map Prod.fst) ?_
  have hsp : ((List.insertionSort lexLt (prep.zip keys)).map Prod.fst).Perm
      ((prep.zip keys).map Prod.fst) :=
    (List.perm_insertionSort lexLt (prep.zip keys)).map Prod.fst
  refine List.Perm.trans hsp ?_
  rw [List.map_fst_zip prep keys hk]

lemma rearranged_perm (strategy : MisfitStrategy) (prep : List (ℤ × ℤ))
    (L : ℕ) (keys : List ℚ) (hk : prep.length ≤ keys.length) :
    ((rearranged strategy prep L keys).map Prod.fst).Perm
      (prep.map Prod.fst) := by
  cases strategy with
  | stratum => exact List.Perm.refl _
  | global =>
    show (((extract_misfits prep L keys).1 ++
      (extract_misfits prep L keys).2.map
        (fun x : ℤ × ℤ => ((x.1, -1) : ℤ × ℤ))).map
        Prod.fst).Perm _
    rw [List.map_append, List.map_map]
    have hcomp : (Prod.fst ∘ fun x : ℤ × ℤ => ((x.1, -1) : ℤ × ℤ)) =
        Prod.fst := rfl
    rw [hcomp, ← List.map_append]
    exact (extract_misfits_perm prep L keys hk).map Prod.fst

/-! ### Helper lemmas: sorting by the unique identifiers -/

lemma sortById_sorted (data : List Row) :
    List.Pairwise (fun a b : Row => a.id ≤ b.id) (sortById data) := by
  unfold sortById
  haveI h1 : IsTotal Row (fun a b : Row => a.id ≤ b.id) :=
    ⟨fun a b => le_total a.id b.id⟩
  haveI h2 : IsTrans Row (fun a b : Row => a.id ≤ b.id) :=
    ⟨fun a b c hab hbc => le_trans hab hbc⟩
  exact List.sorted_insertionSort _ data

lemma pairwise_lt_of_sorted_nodup (l : List Row)
    (hs : List.Pairwise (fun a b : Row => a.id ≤ b.id) l)
    (hnd : (l.map Row.id).Nodup) :
    List.Pairwise (fun a b : Row => a.id < b.id) l := by
  have hne : List.Pairwise (fun a b : Row => a.id ≠ b.id) l :=
    (List.pairwise_map).mp hnd
  exact (hs.and hne).imp (fun h => lt_of_le_of_ne h.1 h.2)

lemma sortById_eq_of_perm (data data' : List Row) (h : data.Perm data')
    (hnd : (data.map Row.id).Nodup) : sortById data = sortById data' := by
  have hp : (sortById data).Perm (sortById data') :=
    ((List.perm_insertionSort _ data).trans h).trans
      (List.perm_insertionSort _ data').symm
  have hnd1 : ((sortById data).map Row.id).Nodup :=
    (((List.perm_insertionSort _ data).map Row.id).nodup_iff).mpr hnd
  have hnd2 : ((sortById data').map Row.id).Nodup :=
    ((hp.map Row.id).nodup_iff).mp hnd1
  haveI : IsAntisymm Row (fun a b : Row => a.id < b.id) :=
    ⟨fun a b h1 h2 => absurd (lt_trans h1 h2) (lt_irrefl _)⟩
  exact List.eq_of_perm_of_sorted hp
    (pairwise_lt_of_sorted_nodup _ (sortById_sorted data) hnd1)
    (pairwise_lt_of_sorted_nodup _ (sortById_sorted data') hnd2)

lemma stochatreatRun_congr (strategy : MisfitStrategy) (probs : List ℚ)
    (keys : List ℚ) (perms : ℕ → List ℕ) (data data' : List Row)
    (hsort : sortById data = sortById data') :
    stochatreatRun strategy probs keys perms data =
      stochatreatRun strategy probs keys perms data' := by
  unfold stochatreatRun prepare
  rw [hsort]


/-! ### Helper lemmas: validation and miscellaneous facts -/

lemma getD_mem (probs : List ℚ) (i : ℕ) (hi : i < probs.length) :
    probs.getD i 0 ∈ probs := by
  rw [List.getD_eq_getElem?_getD, List.getElem?_eq_getElem hi]
  exact List.getElem_mem _

lemma getD_oob (probs : List ℚ) (i : ℕ) (hi : probs.length ≤ i) :
    probs.getD i 0 = 0 := by
  rw [List.getD_eq_getElem?_getD, List.getElem?_eq_none hi]
  rfl

lemma mkRat_half : (mkRat 1 2 : ℚ) = 1 / 2 := by
  rw [Rat.mkRat_eq_div]
  norm_num

lemma validPerms_range (L : ℕ) : ValidPerms L (fun _ => List.range L) :=
  fun _ => List.Perm.refl _

lemma validateData_ne_invalidProbs (data : List Row) :
    validateData data ≠ some StochErr.invalidProbs := by
  unfold validateData
  split_ifs <;> simp

lemma validate_perm (data data' : List Row) (treats : ℕ)
    (probs? : Option (List ℚ)) (h : data'.Perm data) :
    validate data' treats probs? = validate data treats probs? := by
  have hlen := h.length_eq
  have hvd : validateData data' = validateData data := by
    unfold validateData
    by_cases h0 : data = []
    · subst h0
      have h0' : data' = [] := h.eq_nil
      subst h0'
      rfl
    · have h0' : data' ≠ [] := by
        intro he
        exact h0 (List.length_eq_zero.mp (by rw [← hlen, he, List.length_nil]))
      rw [if_neg h0, if_neg h0', hlen]
      have hnd : (data'.map Row.id).Nodup ↔ (data.map Row.id).Nodup :=
        (h.map Row.id).nodup_iff
      by_cases h2 : data.length < 2
      · rw [if_pos h2, if_pos h2]
      · rw [if_neg h2, if_neg h2]
        by_cases h3 : (data.map Row.id).Nodup
        · rw [if_neg (not_not_intro (hnd.mpr h3)),
            if_neg (not_not_intro h3)]
        · rw [if_pos (fun hc => h3 (hnd.mp hc)), if_pos h3]
  unfold validate
  cases probs? with
  | none => exact hvd
  | some probs => rw [hvd]

lemma validate_none_nodup (data : List Row) (treats : ℕ)
    (probs? : Option (List ℚ)) (h : validate data treats probs? = none) :
    (data.map Row.id).Nodup := by
  have hvd : validateData data = none := by
    cases probs? with
    | none => simpa only [validate] using h
    | some probs =>
      simp only [validate] at h
      split_ifs at h <;> simp_all
  unfold validateData at hvd
  split_ifs at hvd with h1 h2 h3 <;> simp_all

/-! ### Helper lemmas: counting rows of one stratum in the output -/

lemma countP_stratum_seg_ne (ids : List ℤ) (ts : List ℕ) (s' s : ℤ)
    (hne : s' ≠ s) :
    ((ids.zip ts).map (fun x => Assignment.mk x.1 s' x.2)).countP
      (fun r => decide (r.stratum_id = s)) = 0 := by
  rw [List.countP_eq_zero]
  intro a ha
  rcases List.mem_map.mp ha with ⟨x, _, rfl⟩
  simp [hne]

lemma countP_stratum_seg_eq (ids : List ℤ) (ts : List ℕ) (s' : ℤ)
    (hlen : ids.length ≤ ts.length) :
    ((ids.zip ts).map (fun x => Assignment.mk x.1 s' x.2)).countP
      (fun r => decide (r.stratum_id = s')) = ids.length := by
  have h1 : ((ids.zip ts).map
      (fun x => Assignment.mk x.1 s' x.2)).countP
        (fun r => decide (r.stratum_id = s')) =
      ((ids.zip ts).map (fun x => Assignment.mk x.1 s' x.2)).length := by
    rw [List.countP_eq_length]
    intro a ha
    rcases List.mem_map.mp ha with ⟨x, _, rfl⟩
    simp
  rw [h1, List.length_map, List.length_zip]
  exact Nat.min_eq_left hlen

lemma stratum_count_assign_groups_not_mem (mask : List ℕ) (L : ℕ)
    (perms : ℕ → List ℕ) :
    ∀ (groups : List (ℤ × List ℤ)) (b0 : ℕ) (s : ℤ),
      s ∉ groups.map Prod.fst →
      (assign_groups mask L perms b0 groups).countP
        (fun r => decide (r.stratum_id = s)) = 0 := by
  intro groups
  induction groups with
  | nil =>
    intro b0 s _
    rfl
  | cons g rest ih =>
    intro b0 s hs
    obtain ⟨s', ids'⟩ := g
    rw [List.map_cons, List.mem_cons] at hs
    push_neg at hs
    show ((ids'.zip _).map _ ++
      assign_groups mask L perms _ rest).countP _ = 0
    rw [List.countP_append, countP_stratum_seg_ne _ _ _ _ (Ne.symm hs.1),
      Nat.zero_add]
    exact ih _ s hs.2

lemma stratum_count_assign_groups (mask : List ℕ) (L : ℕ)
    (perms : ℕ → List ℕ) (hm : mask.length = L) (hL : 0 < L)
    (hperms : ValidPerms L perms) :
    ∀ (groups : List (ℤ × List ℤ)) (b0 : ℕ) (s : ℤ) (ids : List ℤ),
      (groups.map Prod.fst).Nodup → (s, ids) ∈ groups →
      (assign_groups mask L perms b0 groups).countP
        (fun r => decide (r.stratum_id = s)) = ids.length := by
  intro groups
  induction groups with
  | nil =>
    intro _ _ _ _ hmem
    cases hmem
  | cons g rest ih =>
    intro b0 s ids hnd hmem
    obtain ⟨s', ids'⟩ := g
    rw [List.map_cons, List.nodup_cons] at hnd
    rcases List.mem_cons.mp hmem with heq | hrest
    · rw [Prod.mk.injEq] at heq
      obtain ⟨rfl, rfl⟩ := heq
      show ((ids.zip _).map _ ++
        assign_groups mask L perms _ rest).countP _ = ids.length
      rw [List.countP_append,
        stratum_count_assign_groups_not_mem mask L perms rest _ s hnd.1,
        Nat.add_zero]
      refine countP_stratum_seg_eq _ _ _ ?_
      rw [stratum_treats_length mask L perms b0 ids.length hm hL hperms]
    · have hs : s' ≠ s := by
        intro he
        apply hnd.1
        rw [he]
        exact (List.mem_map).mpr ⟨(s, ids), hrest, rfl⟩
      show ((ids'.zip _).map _ ++
        assign_groups mask L perms _ rest).countP _ = ids.length
      rw [List.countP_append, countP_stratum_seg_ne _ _ _ _ hs,
        Nat.zero_add]
      exact ih _ s ids hnd.2 hrest

lemma mem_assign_groups (mask : List ℕ) (L : ℕ) (perms : ℕ → List ℕ) :
    ∀ (groups : List (ℤ × List ℤ)) (b0 : ℕ) (a : Assignment),
      a ∈ assign_groups mask L perms b0 groups →
      ∃ g ∈ groups, a.stratum_id = g.1 ∧ a.id ∈ g.2 := by
  intro groups
  induction groups with
  | nil =>
    intro _ _ ha
    cases ha
  | cons g rest ih =>
    intro b0 a ha
    obtain ⟨s', ids'⟩ := g
    rcases List.mem_append.mp ha with hseg | hrest
    · rcases List.mem_map.mp hseg with ⟨x, hx, rfl⟩
      exact ⟨(s', ids'), List.mem_cons_self _ _, rfl,
        (List.of_mem_zip hx).1⟩
    · obtain ⟨g', hg', h1, h2⟩ := ih _ a hrest
      exact ⟨g', List.mem_cons_of_mem _ hg', h1, h2⟩


/-! ### Witness-scenario helper facts -/

lemma probs_half_nonneg : ∀ p ∈ ([mkRat 1 2, mkRat 1 2] : List ℚ), 0 ≤ p := by
  decide

lemma probs_half_den :
    ∀ p ∈ ([mkRat 1 2, mkRat 1 2] : List ℚ), p.den ≤ 1000000 := by
  decide

lemma probs_half_sum : ([mkRat 1 2, mkRat 1 2] : List ℚ).sum = 1 := by
  norm_num [mkRat_half]

lemma mkRat_tenth : (mkRat 1 10 : ℚ) = 1 / 10 := by
  rw [Rat.mkRat_eq_div]
  norm_num

lemma mkRat_fifth : (mkRat 1 5 : ℚ) = 1 / 5 := by
  rw [Rat.mkRat_eq_div]
  norm_num

lemma not_isclose_prob_sum :
    ¬ isclose ([mkRat 1 10, mkRat 1 5] : List ℚ).sum 1 := by
  unfold isclose
  have hsum : ([mkRat 1 10, mkRat 1 5] : List ℚ).sum = 3 / 10 := by
    norm_num [mkRat_tenth, mkRat_fifth]
  rw [hsum]
  intro h
  have h1 : |(3 : ℚ)/10 - 1| = 7/10 := by
    rw [abs_of_neg (by norm_num)]
    norm_num
  have h2 : |(3 : ℚ)/10| = 3/10 := abs_of_nonneg (by norm_num)
  have h3 : |(1 : ℚ)| = 1 := abs_one
  have h4 : max ((3 : ℚ)/10) 1 = 1 := max_eq_right (by norm_num)
  have h0 : (mkRat 1 1000000000 : ℚ) = 1 / 1000000000 := by
    rw [Rat.mkRat_eq_div]
    norm_num
  rw [h1, h2, h3, h4, h0] at h
  have h5 : (1 : ℚ)/1000000000 * 1 = 1/1000000000 := mul_one _
  have h6 : max ((1 : ℚ)/1000000000) 0 = 1/1000000000 :=
    max_eq_left (by norm_num)
  rw [h5, h6] at h
  norm_num at h

/-! ### Claim C4 -/

/-- C4: for every valid probability vector (nonnegative exact rationals
within the limit_denominator bound, summing to one), the treatment mask
contains each treatment id i exactly round(probs[i] * lcm_denominator)
times, and the total length of the mask equals lcm_denominator. -/
theorem claim_C4_treat_mask (probs : List ℚ)
    (hnn : ∀ p ∈ probs, 0 ≤ p) (hden : ∀ p ∈ probs, p.den ≤ 1000000)
    (hsum : probs.sum = 1) :
    (∀ i, i < probs.length →
      (List.count i (treat_mask probs) : ℤ) =
        round ((get_lcm_prob_denominators probs : ℚ) * probs.getD i 0)) ∧
    (treat_mask probs).length = get_lcm_prob_denominators probs := by
  refine ⟨?_, treat_mask_length probs hnn hden hsum⟩
  intro i hi
  rw [count_treat_mask, if_pos hi]
  unfold treat_mask_count
  have hmem := getD_mem probs i hi
  rw [cast_mul_int _ _ (den_dvd_lcm probs _ hmem (hden _ hmem)),
    round_intCast]
  exact Int.toNat_of_nonneg
    (mul_nonneg (Int.ofNat_nonneg _) (Rat.num_nonneg.mpr (hnn _ hmem)))

/-- C4 witness: the mask invariant instantiated at probs = [1/2, 1/2]. -/
theorem claim_C4_witness :
    (∀ p ∈ ([mkRat 1 2, mkRat 1 2] : List ℚ), 0 ≤ p) ∧
    (∀ p ∈ ([mkRat 1 2, mkRat 1 2] : List ℚ), p.den ≤ 1000000) ∧
    ([mkRat 1 2, mkRat 1 2] : List ℚ).sum = 1 ∧
    ((∀ i, i < ([mkRat 1 2, mkRat 1 2] : List ℚ).length →
      (List.count i (treat_mask [mkRat 1 2, mkRat 1 2]) : ℤ) =
        round ((get_lcm_prob_denominators [mkRat 1 2, mkRat 1 2] : ℚ) *
          ([mkRat 1 2, mkRat 1 2] : List ℚ).getD i 0)) ∧
    (treat_mask [mkRat 1 2, mkRat 1 2]).length =
      get_lcm_prob_denominators [mkRat 1 2, mkRat 1 2]) :=
  ⟨probs_half_nonneg, probs_half_den, probs_half_sum,
    claim_C4_treat_mask _ probs_half_nonneg probs_half_den probs_half_sum⟩

/-! ### Claim C7 -/

/-- C7: with an explicit probs vector supplied, the call fails with the
invalid-probabilities condition if and only if the probabilities do not
sum to 1 within math.isclose tolerance or the vector length differs from
the number of treatments; the check runs before any data handling, so the
failure is eager with no partial output. -/
theorem claim_C7_invalid_probs (data : List Row) (treats : ℕ)
    (probs : List ℚ) (strategy : MisfitStrategy) (keys : List ℚ)
    (perms : ℕ → List ℕ) :
    stochatreat data treats (some probs) strategy keys perms =
      Except.error StochErr.invalidProbs ↔
    (¬ isclose probs.sum 1 ∨ probs.length ≠ treats) := by
  simp only [stochatreat, validate]
  by_cases h1 : isclose probs.sum 1
  · rw [if_neg (not_not_intro h1)]
    by_cases h2 : probs.length = treats
    · rw [if_neg (not_not_intro h2)]
      constructor
      · intro hcontra
        cases hval : validateData data with
        | none =>
          rw [hval] at hcontra
          simp at hcontra
        | some e =>
          rw [hval] at hcontra
          simp only [Except.error.injEq] at hcontra
          exact absurd (by rw [hval, hcontra])
            (validateData_ne_invalidProbs data)
      · intro hrhs
        rcases hrhs with hr | hr
        · exact absurd h1 hr
        · exact absurd h2 hr
    · rw [if_pos h2]
      simp [h2]
  · rw [if_pos h1]
    simp [h1]

/-- C7 witness: probs = [0.1, 0.2] (sum 3/10) is rejected with the
invalid-probabilities error on a concrete two-row input. -/
theorem claim_C7_witness :
    (¬ isclose ([mkRat 1 10, mkRat 1 5] : List ℚ).sum 1 ∨
      ([mkRat 1 10, mkRat 1 5] : List ℚ).length ≠ 2) ∧
    stochatreat [⟨1, 0⟩, ⟨2, 0⟩] 2 (some [mkRat 1 10, mkRat 1 5])
      MisfitStrategy.stratum [] (fun _ => []) =
      Except.error StochErr.invalidProbs :=
  ⟨Or.inl not_isclose_prob_sum,
    (claim_C7_invalid_probs _ _ _ _ _ _).mpr (Or.inl not_isclose_prob_sum)⟩

lemma lcm_replicate (q : ℚ) (d : ℕ) (hq : prob_denominator q = d) :
    ∀ n, get_lcm_prob_denominators (List.replicate (n + 1) q) = d := by
  intro n
  induction n with
  | zero =>
    show Nat.lcm (prob_denominator q) 1 = d
    rw [hq, Nat.lcm_one_right]
  | succ n ih =>
    show Nat.lcm (prob_denominator q)
      (get_lcm_prob_denominators (List.replicate (n + 1) q)) = d
    rw [hq, ih, Nat.lcm_self]

/-! ### Claim C9 -/

/-- C9 counterexample: the resolver does not turn the IEEE double 0.142857
into denominator 7; Fraction(0.142857).limit_denominator() is
142857/1000000, so the resolved denominator is 1000000. -/
theorem claim_C9_counterexample :
    prob_denominator float_0_142857 = 1000000 ∧
      prob_denominator float_0_142857 ≠ 7 := by
  constructor
  · decide
  · decide

/-- C9 amended: limit_denominator keeps any probability whose exact
denominator is within the 10^6 bound, so the double nearest 1/7 resolves
to denominator 7, the double 0.142857 resolves to denominator 10^6 (not
7), and for equal probabilities with treats = t (t at most 10^6) the lcm
of denominators reduces to exactly t. -/
theorem claim_C9_amended (t : ℕ) (h1 : 1 ≤ t) (h2 : t ≤ 1000000) :
    get_lcm_prob_denominators (resolve_probs t none) = t ∧
    prob_denominator float_one_seventh = 7 := by
  refine ⟨?_, by decide⟩
  have hden : ((1 : ℚ)/t).den = t := by
    rw [one_div]
    exact Rat.inv_natCast_den_of_pos (by omega)
  have hpd : prob_denominator ((1 : ℚ)/t) = t := by
    rw [prob_denominator_of_den_le _ (by rw [hden]; exact h2), hden]
  show get_lcm_prob_denominators (List.replicate t ((1 : ℚ)/t)) = t
  obtain ⟨n, rfl⟩ : ∃ n, t = n + 1 := ⟨t - 1, by omega⟩
  exact lcm_replicate _ _ hpd n

/-- C9 witness: the amended statement instantiated at t = 7. -/
theorem claim_C9_witness :
    (1 ≤ 7 ∧ 7 ≤ 1000000) ∧
    (get_lcm_prob_denominators (resolve_probs 7 none) = 7 ∧
      prob_denominator float_one_seventh = 7) :=
  ⟨⟨by decide, by decide⟩, claim_C9_amended 7 (by decide) (by decide)⟩

lemma runOps_invariant {τ : Type} :
    ∀ (ops : List (FrameOp τ)) (h : Heap τ) (cur r : ℕ),
      r < h.next → cur ≠ r →
      ((runOps ops h cur).1.mem r = h.mem r ∧ (runOps ops h cur).2 ≠ r ∧
        r < (runOps ops h cur).1.next) := by
  intro ops
  induction ops with
  | nil =>
    intro h cur r hr hcur
    exact ⟨rfl, hcur, hr⟩
  | cons op rest ih =>
    intro h cur r hr hcur
    cases op with
    | copyFrom f =>
      have hmem : ((h.alloc (f (h.mem cur))).1).mem r = h.mem r := by
        show (if r = h.next then _ else h.mem r) = h.mem r
        rw [if_neg (by omega)]
      have hr' : r < ((h.alloc (f (h.mem cur))).1).next := by
        show r < h.next + 1
        omega
      have hcur' : (h.alloc (f (h.mem cur))).2 ≠ r := by
        show h.next ≠ r
        omega
      have hrest := ih ((h.alloc (f (h.mem cur))).1)
        ((h.alloc (f (h.mem cur))).2) r hr' hcur'
      exact ⟨hrest.1.trans hmem, hrest.2.1, hrest.2.2⟩
    | inplace f =>
      have hmem : ((h.mutate cur f)).mem r = h.mem r := by
        show (if r = cur then _ else h.mem r) = h.mem r
        rw [if_neg (fun he => hcur he.symm)]
      have hr' : r < (h.mutate cur f).next := hr
      have hrest := ih (h.mutate cur f) cur r hr' hcur
      exact ⟨hrest.1.trans hmem, hrest.2.1, hrest.2.2⟩

/-! ### Claim C10 -/

/-- C10: the call never mutates the caller's DataFrame: in the heap model
of the pipeline's pandas operations, after the body runs the caller's
object is unchanged, and the returned DataFrame is a different object.
Every in-place column assignment (stratum_id, fake, treat, the two dtype
restorations) happens on an object created after sort_values or .copy(). -/
theorem claim_C10_no_mutation {τ : Type}
    (sortValues ngroupCol selectCopy astypeObject fakeCol concatSort
      treatCol dropFake astypeBack astypeTreat : τ → τ)
    (h : Heap τ) (caller : ℕ) (hc : caller < h.next) :
    ((stochatreat_frames sortValues ngroupCol selectCopy astypeObject
      fakeCol concatSort treatCol dropFake astypeBack astypeTreat h
        caller).1).mem caller = h.mem caller ∧
    (stochatreat_frames sortValues ngroupCol selectCopy astypeObject
      fakeCol concatSort treatCol dropFake astypeBack astypeTreat h
        caller).2 ≠ caller := by
  have hstep := runOps_invariant (τ := τ)
    (.inplace ngroupCol :: .copyFrom selectCopy :: .inplace astypeObject ::
      .inplace fakeCol :: .copyFrom concatSort :: .inplace treatCol ::
      .copyFrom dropFake :: .inplace astypeBack ::
      [.inplace astypeTreat])
    ((h.alloc (sortValues (h.mem caller))).1)
    ((h.alloc (sortValues (h.mem caller))).2) caller
    (by
      show caller < h.next + 1
      omega)
    (by
      show h.next ≠ caller
      omega)
  have hfirst : ((h.alloc (sortValues (h.mem caller))).1).mem caller =
      h.mem caller := by
    show (if caller = h.next then _ else h.mem caller) = h.mem caller
    rw [if_neg (by omega)]
  exact ⟨hstep.1.trans hfirst, hstep.2.1⟩

/-- C10 witness: the frame theorem instantiated on a concrete one-object
heap with identity table operations. -/
theorem claim_C10_witness :
    (0 < (Heap.mk (fun _ => 0) 1 : Heap ℕ).next) ∧
    ((stochatreat_frames id id id id id id id id id id
      (Heap.mk (fun _ => 0) 1) 0).1).mem 0 =
        (Heap.mk (fun _ => 0) 1 : Heap ℕ).mem 0 ∧
    (stochatreat_frames id id id id id id id id id id
      (Heap.mk (fun _ => 0) 1) 0).2 ≠ 0 :=
  ⟨by decide,
    (claim_C10_no_mutation id id id id id id id id id id
      (Heap.mk (fun _ => 0) 1) 0 (by decide)).1,
    (claim_C10_no_mutation id id id id id id id id id id
      (Heap.mk (fun _ => 0) 1) 0 (by decide)).2⟩


/-! ### Claim C3 -/

/-- C3: for a fixed seed, the call is a pure function of its input, and
the identifier-to-arm mapping is invariant under shuffling the input
rows: a call on any permutation of the rows (with their identifiers and
stratum values) returns the very same output, because the pipeline first
sorts the table by the identifier column; determinism for identical
inputs holds definitionally in the model, where both randomness streams
are fixed by the seed. -/
theorem claim_C3_order_independence (data data' : List Row) (treats : ℕ)
    (probs? : Option (List ℚ)) (strategy : MisfitStrategy) (keys : List ℚ)
    (perms : ℕ → List ℕ) (hperm : data'.Perm data) :
    stochatreat data' treats probs? strategy keys perms =
      stochatreat data treats probs? strategy keys perms := by
  unfold stochatreat
  rw [validate_perm data data' treats probs? hperm]
  cases hval : validate data treats probs? with
  | some e => rfl
  | none =>
    have hnd := validate_none_nodup data treats probs? hval
    have hnd' : (data'.map Row.id).Nodup :=
      ((hperm.map Row.id).nodup_iff).mpr hnd
    exact congrArg Except.ok
      (stochatreatRun_congr strategy _ keys perms data' data
        (sortById_eq_of_perm data' data hperm hnd'))

/-- C3 witness: a three-row input and a shuffle of it produce the same
output under the global strategy with a fixed oracle. -/
theorem claim_C3_witness :
    ([⟨3, 5⟩, ⟨1, 5⟩, ⟨2, 7⟩] : List Row).Perm [⟨1, 5⟩, ⟨2, 7⟩, ⟨3, 5⟩] ∧
    stochatreat [⟨3, 5⟩, ⟨1, 5⟩, ⟨2, 7⟩] 2 (some [mkRat 1 2, mkRat 1 2])
      MisfitStrategy.global [mkRat 1 2, mkRat 1 3, mkRat 1 5]
      (fun _ => List.range 2) =
    stochatreat [⟨1, 5⟩, ⟨2, 7⟩, ⟨3, 5⟩] 2 (some [mkRat 1 2, mkRat 1 2])
      MisfitStrategy.global [mkRat 1 2, mkRat 1 3, mkRat 1 5]
      (fun _ => List.range 2) :=
  ⟨by decide, claim_C3_order_independence _ _ _ _ _ _ _ (by decide)⟩

/-! ### Claim C5 -/

/-- C5: the multiset of identifiers in the output equals the multiset of
identifiers in the input exactly, for either misfit strategy: identifiers
are carried opaquely (the object-dtype protection in the source) through
the fake-row padding and removal, so no identifier is lost, duplicated or
altered. -/
theorem claim_C5_id_roundtrip (strategy : MisfitStrategy)
    (probs keys : List ℚ) (perms : ℕ → List ℕ) (data : List Row)
    (hnn : ∀ p ∈ probs, 0 ≤ p) (hden : ∀ p ∈ probs, p.den ≤ 1000000)
    (hsum : probs.sum = 1)
    (hperms : ValidPerms (get_lcm_prob_denominators probs) perms)
    (hk : data.length ≤ keys.length) :
    ((stochatreatRun strategy probs keys perms data).map
      Assignment.id).Perm (data.map Row.id) := by
  have hL := get_lcm_pos probs hden
  have hm := treat_mask_length probs hnn hden hsum
  unfold stochatreatRun
  rw [assign_groups_map_id _ _ _ hm hL hperms]
  refine List.Perm.trans (groupByStratum_flatten_perm _) ?_
  have hlenp : (prepare data).length = data.length := by
    unfold prepare sortById
    rw [List.length_map, List.length_insertionSort]
  refine List.Perm.trans
    (rearranged_perm strategy (prepare data) _ keys (by rw [hlenp]; exact hk))
    ?_
  have hpf : (prepare data).map Prod.fst = (sortById data).map Row.id := by
    unfold prepare
    rw [List.map_map]
    rfl
  rw [hpf]
  exact (List.perm_insertionSort _ data).map Row.id

lemma validPerms_half :
    ValidPerms (get_lcm_prob_denominators [mkRat 1 2, mkRat 1 2])
      (fun _ => List.range 2) := by
  have h : get_lcm_prob_denominators [mkRat 1 2, mkRat 1 2] = 2 := by decide
  rw [h]
  exact validPerms_range 2

/-- C5 witness: the identifier round-trip at the large adjacent integer
ids near 2^53, two strata of size 2, two arms with probs [1/2, 1/2]. -/
theorem claim_C5_witness :
    (∀ p ∈ ([mkRat 1 2, mkRat 1 2] : List ℚ), 0 ≤ p) ∧
    (∀ p ∈ ([mkRat 1 2, mkRat 1 2] : List ℚ), p.den ≤ 1000000) ∧
    ([mkRat 1 2, mkRat 1 2] : List ℚ).sum = 1 ∧
    ([⟨103241243500726324, 0⟩, ⟨103241243500726320, 0⟩,
      ⟨9007199254740992, 1⟩, ⟨9007199254740993, 1⟩] : List Row).length ≤
      ([0, 0, 0, 0] : List ℚ).length ∧
    ((stochatreatRun MisfitStrategy.stratum [mkRat 1 2, mkRat 1 2]
      [0, 0, 0, 0] (fun _ => List.range 2)
      [⟨103241243500726324, 0⟩, ⟨103241243500726320, 0⟩,
        ⟨9007199254740992, 1⟩, ⟨9007199254740993, 1⟩]).map
      Assignment.id).Perm
      (([⟨103241243500726324, 0⟩, ⟨103241243500726320, 0⟩,
        ⟨9007199254740992, 1⟩, ⟨9007199254740993, 1⟩] : List Row).map
        Row.id) :=
  ⟨probs_half_nonneg, probs_half_den, probs_half_sum, by decide,
    claim_C5_id_roundtrip MisfitStrategy.stratum _ _ _ _
      probs_half_nonneg probs_half_den probs_half_sum validPerms_half
      (by decide)⟩

/-! ### Claim C8 -/

/-- C8: the seeded misfit selection of extract_misfits draws one uniform
value per row across the whole table, so the within-stratum ranks of the
selected misfits are independent across strata: on this input with two
strata of equal size 3 and block size 2, the draws select the misfit of
stratum 0 at relative position 0 and the misfit of stratum 1 at relative
position 2 — the selected relative positions do not collapse to the same
index across strata. -/
theorem claim_C8_misfit_independence :
    ((extract_misfits
        [(1, 0), (2, 0), (3, 0), (4, 1), (5, 1), (6, 1)] 2
        [mkRat 1 10, mkRat 2 10, mkRat 3 10, mkRat 3 10, mkRat 2 10,
          mkRat 1 10]).2.map
      (relative_position
        [(1, 0), (2, 0), (3, 0), (4, 1), (5, 1), (6, 1)])) = [0, 2] ∧
    ((extract_misfits
        [(1, 0), (2, 0), (3, 0), (4, 1), (5, 1), (6, 1)] 2
        [mkRat 1 10, mkRat 2 10, mkRat 3 10, mkRat 3 10, mkRat 2 10,
          mkRat 1 10]).2.map
      (relative_position
        [(1, 0), (2, 0), (3, 0), (4, 1), (5, 1), (6, 1)])).Nodup :=
  ⟨by decide, by decide⟩


/-! ### Claim C1 -/

/-- C1: for every well-formed input in which each stratum's size is an
exact multiple of lcm_denominator, the permutation-based assignment gives
every treatment arm i exactly stratum_size * probs[i] units within every
stratum (zero deviation from the target proportions). -/
theorem claim_C1_exact_fit (probs keys : List ℚ) (perms : ℕ → List ℕ)
    (data : List Row)
    (hnn : ∀ p ∈ probs, 0 ≤ p) (hden : ∀ p ∈ probs, p.den ≤ 1000000)
    (hsum : probs.sum = 1)
    (hperms : ValidPerms (get_lcm_prob_denominators probs) perms)
    (hdvd : ∀ g ∈ groupByStratum (prepare data),
      get_lcm_prob_denominators probs ∣ g.2.length) :
    ∀ g ∈ groupByStratum (prepare data), ∀ i : ℕ,
      ((arm_count (stochatreatRun MisfitStrategy.stratum probs keys perms
        data) g.1 i : ℕ) : ℚ) = (g.2.length : ℚ) * probs.getD i 0 := by
  intro g hg i
  obtain ⟨s, ids⟩ := g
  have hL := get_lcm_pos probs hden
  have hm := treat_mask_length probs hnn hden hsum
  obtain ⟨b, hb⟩ := arm_count_assign_groups (treat_mask probs)
    (get_lcm_prob_denominators probs) perms hm hL hperms
    (groupByStratum (prepare data)) 0 s ids i
    (groupByStratum_keys_nodup _) hg
  have hrw : stochatreatRun MisfitStrategy.stratum probs keys perms data =
      assign_groups (treat_mask probs) (get_lcm_prob_denominators probs)
        perms 0 (groupByStratum (prepare data)) := rfl
  rw [hrw, hb]
  have hdvd' := hdvd (s, ids) hg
  have hmod : ids.length % get_lcm_prob_denominators probs = 0 :=
    Nat.mod_eq_zero_of_dvd hdvd'
  obtain ⟨r, hr, hcnt⟩ := count_stratum_treats (treat_mask probs)
    (get_lcm_prob_denominators probs) perms b ids.length i hm hL hperms
  rw [hmod] at hr
  rw [hcnt, Nat.le_zero.mp hr, Nat.add_zero]
  by_cases hi : i < probs.length
  · rw [count_treat_mask, if_pos hi, Nat.cast_mul,
      treat_mask_count_cast probs i hi hnn hden]
    have hnl : ((ids.length / get_lcm_prob_denominators probs : ℕ) : ℚ) *
        (get_lcm_prob_denominators probs : ℚ) = (ids.length : ℚ) := by
      rw [← Nat.cast_mul, Nat.div_mul_cancel hdvd']
    rw [← mul_assoc, hnl]
  · rw [count_treat_mask, if_neg hi, Nat.mul_zero,
      getD_oob probs i (le_of_not_lt hi), mul_zero, Nat.cast_zero]

/-- C1 witness: two strata of size 2 with probs [1/2, 1/2] (block size 2)
realize exactly size * 1/2 units per arm in every stratum. -/
theorem claim_C1_witness :
    (∀ p ∈ ([mkRat 1 2, mkRat 1 2] : List ℚ), 0 ≤ p) ∧
    (∀ p ∈ ([mkRat 1 2, mkRat 1 2] : List ℚ), p.den ≤ 1000000) ∧
    ([mkRat 1 2, mkRat 1 2] : List ℚ).sum = 1 ∧
    (∀ g ∈ groupByStratum (prepare
      [⟨1, 0⟩, ⟨2, 0⟩, ⟨3, 1⟩, ⟨4, 1⟩]),
      get_lcm_prob_denominators [mkRat 1 2, mkRat 1 2] ∣ g.2.length) ∧
    (∀ g ∈ groupByStratum (prepare
      [⟨1, 0⟩, ⟨2, 0⟩, ⟨3, 1⟩, ⟨4, 1⟩]), ∀ i : ℕ,
      ((arm_count (stochatreatRun MisfitStrategy.stratum
        [mkRat 1 2, mkRat 1 2] [] (fun _ => List.range 2)
        [⟨1, 0⟩, ⟨2, 0⟩, ⟨3, 1⟩, ⟨4, 1⟩]) g.1 i : ℕ) : ℚ) =
        (g.2.length : ℚ) * ([mkRat 1 2, mkRat 1 2] : List ℚ).getD i 0) :=
  ⟨probs_half_nonneg, probs_half_den, probs_half_sum, by decide,
    claim_C1_exact_fit _ _ _ _ probs_half_nonneg probs_half_den
      probs_half_sum validPerms_half (by decide)⟩

/-! ### Claim C2 -/

/-- C2: for every well-formed input, every stratum of size n and every
arm i, the realized count equals floor(n/lcm) * mask_count[i] plus a
remainder contribution bounded by n mod lcm, and the absolute deviation
from n * probs[i] is strictly below lcm_denominator. -/
theorem claim_C2_bounded_slack (strategy : MisfitStrategy)
    (probs keys : List ℚ) (perms : ℕ → List ℕ) (data : List Row)
    (hnn : ∀ p ∈ probs, 0 ≤ p) (hden : ∀ p ∈ probs, p.den ≤ 1000000)
    (hsum : probs.sum = 1)
    (hperms : ValidPerms (get_lcm_prob_denominators probs) perms) :
    ∀ g ∈ groupByStratum (rearranged strategy (prepare data)
      (get_lcm_prob_denominators probs) keys), ∀ i : ℕ,
      ∃ r ≤ g.2.length % get_lcm_prob_denominators probs,
        arm_count (stochatreatRun strategy probs keys perms data) g.1 i =
          g.2.length / get_lcm_prob_denominators probs *
            List.count i (treat_mask probs) + r ∧
        |((arm_count (stochatreatRun strategy probs keys perms data) g.1 i
            : ℕ) : ℚ) - (g.2.length : ℚ) * probs.getD i 0| <
          (get_lcm_prob_denominators probs : ℚ) := by
  intro g hg i
  obtain ⟨s, ids⟩ := g
  have hL := get_lcm_pos probs hden
  have hm := treat_mask_length probs hnn hden hsum
  obtain ⟨b, hb⟩ := arm_count_assign_groups (treat_mask probs)
    (get_lcm_prob_denominators probs) perms hm hL hperms
    (groupByStratum (rearranged strategy (prepare data)
      (get_lcm_prob_denominators probs) keys)) 0 s ids i
    (groupByStratum_keys_nodup _) hg
  have hrw : stochatreatRun strategy probs keys perms data =
      assign_groups (treat_mask probs) (get_lcm_prob_denominators probs)
        perms 0 (groupByStratum (rearranged strategy (prepare data)
          (get_lcm_prob_denominators probs) keys)) := rfl
  obtain ⟨r, hr, hcnt⟩ := count_stratum_treats (treat_mask probs)
    (get_lcm_prob_denominators probs) perms b ids.length i hm hL hperms
  have hrem : ids.length % get_lcm_prob_denominators probs <
      get_lcm_prob_denominators probs := Nat.mod_lt _ hL
  refine ⟨r, hr, ?_, ?_⟩
  · rw [hrw, hb, hcnt]
  · rw [hrw, hb, hcnt]
    have hn : (ids.length : ℚ) =
        ((ids.length / get_lcm_prob_denominators probs : ℕ) : ℚ) *
          (get_lcm_prob_denominators probs : ℚ) +
        ((ids.length % get_lcm_prob_denominators probs : ℕ) : ℚ) := by
      rw [← Nat.cast_mul, ← Nat.cast_add]
      congr 1
      rw [Nat.mul_comm]
      exact (Nat.div_add_mod _ _).symm
    by_cases hi : i < probs.length
    · rw [count_treat_mask, if_pos hi]
      have hcast := treat_mask_count_cast probs i hi hnn hden
      have hpnn : 0 ≤ probs.getD i 0 := hnn _ (getD_mem probs i hi)
      have hple : probs.getD i 0 ≤ 1 := by
        calc probs.getD i 0 ≤ probs.sum :=
          List.single_le_sum hnn _ (getD_mem probs i hi)
        _ = 1 := hsum
      rw [show ((ids.length / get_lcm_prob_denominators probs *
          treat_mask_count probs i + r : ℕ) : ℚ) =
          ((ids.length / get_lcm_prob_denominators probs : ℕ) : ℚ) *
            ((treat_mask_count probs i : ℕ) : ℚ) + (r : ℚ) from by
        push_cast
        ring]
      rw [hcast]
      rw [show ((ids.length / get_lcm_prob_denominators probs : ℕ) : ℚ) *
          ((get_lcm_prob_denominators probs : ℚ) * probs.getD i 0) +
          (r : ℚ) - (ids.length : ℚ) * probs.getD i 0 =
          (r : ℚ) - ((ids.length % get_lcm_prob_denominators probs : ℕ) :
            ℚ) * probs.getD i 0 from by
        rw [hn]
        ring]
      rw [abs_sub_lt_iff]
      have h1 : (r : ℚ) ≤
          ((ids.length % get_lcm_prob_denominators probs : ℕ) : ℚ) := by
        exact_mod_cast hr
      have h2 : (0 : ℚ) ≤
          ((ids.length % get_lcm_prob_denominators probs : ℕ) : ℚ) *
            probs.getD i 0 := mul_nonneg (Nat.cast_nonneg _) hpnn
      have h3 : ((ids.length % get_lcm_prob_denominators probs : ℕ) : ℚ) <
          (get_lcm_prob_denominators probs : ℚ) := by
        exact_mod_cast hrem
      have h4 : ((ids.length % get_lcm_prob_denominators probs : ℕ) : ℚ) *
          probs.getD i 0 ≤
          ((ids.length % get_lcm_prob_denominators probs : ℕ) : ℚ) := by
        calc ((ids.length % get_lcm_prob_denominators probs : ℕ) : ℚ) *
            probs.getD i 0 ≤
            ((ids.length % get_lcm_prob_denominators probs : ℕ) : ℚ) * 1 :=
            mul_le_mul_of_nonneg_left hple (Nat.cast_nonneg _)
        _ = _ := mul_one _
      have h5 : (0 : ℚ) ≤ (r : ℚ) := Nat.cast_nonneg _
      constructor
      · linarith
      · linarith
    · rw [count_treat_mask, if_neg hi,
        getD_oob probs i (le_of_not_lt hi), Nat.mul_zero, Nat.zero_add,
        mul_zero, sub_zero, abs_of_nonneg (Nat.cast_nonneg _)]
      have h1 : (r : ℚ) ≤
          ((ids.length % get_lcm_prob_denominators probs : ℕ) : ℚ) := by
        exact_mod_cast hr
      have h3 : ((ids.length % get_lcm_prob_denominators probs : ℕ) : ℚ) <
          (get_lcm_prob_denominators probs : ℚ) := by
        exact_mod_cast hrem
      linarith

/-- C2 witness: a single stratum of size 5 with probs [1/2, 1/2]: counts
decompose as 2 * mask_count + remainder and deviate from 5/2 by less
than the block size 2. -/
theorem claim_C2_witness :
    (∀ p ∈ ([mkRat 1 2, mkRat 1 2] : List ℚ), 0 ≤ p) ∧
    (∀ p ∈ ([mkRat 1 2, mkRat 1 2] : List ℚ), p.den ≤ 1000000) ∧
    ([mkRat 1 2, mkRat 1 2] : List ℚ).sum = 1 ∧
    (∀ g ∈ groupByStratum (rearranged MisfitStrategy.stratum (prepare
      [⟨1, 0⟩, ⟨2, 0⟩, ⟨3, 0⟩, ⟨4, 0⟩, ⟨5, 0⟩])
        (get_lcm_prob_denominators [mkRat 1 2, mkRat 1 2]) []), ∀ i : ℕ,
      ∃ r ≤ g.2.length % get_lcm_prob_denominators [mkRat 1 2, mkRat 1 2],
        arm_count (stochatreatRun MisfitStrategy.stratum
          [mkRat 1 2, mkRat 1 2] [] (fun _ => List.range 2)
          [⟨1, 0⟩, ⟨2, 0⟩, ⟨3, 0⟩, ⟨4, 0⟩, ⟨5, 0⟩]) g.1 i =
          g.2.length / get_lcm_prob_denominators [mkRat 1 2, mkRat 1 2] *
            List.count i (treat_mask [mkRat 1 2, mkRat 1 2]) + r ∧
        |((arm_count (stochatreatRun MisfitStrategy.stratum
            [mkRat 1 2, mkRat 1 2] [] (fun _ => List.range 2)
            [⟨1, 0⟩, ⟨2, 0⟩, ⟨3, 0⟩, ⟨4, 0⟩, ⟨5, 0⟩]) g.1 i : ℕ) : ℚ) -
          (g.2.length : ℚ) * ([mkRat 1 2, mkRat 1 2] : List ℚ).getD i 0| <
          (get_lcm_prob_denominators [mkRat 1 2, mkRat 1 2] : ℚ)) :=
  ⟨probs_half_nonneg, probs_half_den, probs_half_sum,
    claim_C2_bounded_slack MisfitStrategy.stratum _ _ _ _
      probs_half_nonneg probs_half_den probs_half_sum validPerms_half⟩


/-! ### Claim C6 -/

lemma treat_mask_half : treat_mask [mkRat 1 2, mkRat 1 2] = [0, 1] := by
  have hL : get_lcm_prob_denominators [mkRat 1 2, mkRat 1 2] = 2 := by
    decide
  have h0 : treat_mask_count [mkRat 1 2, mkRat 1 2] 0 = 1 := by
    unfold treat_mask_count
    rw [hL]
    norm_num [mkRat_half]
  have h1 : treat_mask_count [mkRat 1 2, mkRat 1 2] 1 = 1 := by
    unfold treat_mask_count
    rw [hL]
    norm_num [mkRat_half]
  unfold treat_mask
  show (List.range 2).flatMap _ = [0, 1]
  rw [List.range_succ, List.range_succ, List.range_zero]
  simp [h0, h1]

/-- C6: literal scenario: ids 1..9 in strata of sizes 5 and 4, two arms
with probs [1/2, 1/2] (block size 2) under the global misfit strategy:
for every misfit-draw oracle and every valid permutation oracle, exactly
one unit is pooled into the sentinel stratum -1, that unit comes from the
size-5 stratum (ids 1..5), and each original stratum realizes an exact
2/2 split. -/
theorem claim_C6_literal_scenario (keys : List ℚ) (perms : ℕ → List ℕ)
    (hk : 9 ≤ keys.length) (hperms : ValidPerms 2 perms) :
    ((stochatreatRun MisfitStrategy.global [mkRat 1 2, mkRat 1 2] keys
      perms data9).filter (fun r => decide (r.stratum_id = -1))).length
        = 1 ∧
    (∀ r ∈ stochatreatRun MisfitStrategy.global [mkRat 1 2, mkRat 1 2]
      keys perms data9, r.stratum_id = -1 →
        r.id ∈ ([1, 2, 3, 4, 5] : List ℤ)) ∧
    arm_count (stochatreatRun MisfitStrategy.global [mkRat 1 2, mkRat 1 2]
      keys perms data9) 0 0 = 2 ∧
    arm_count (stochatreatRun MisfitStrategy.global [mkRat 1 2, mkRat 1 2]
      keys perms data9) 0 1 = 2 ∧
    arm_count (stochatreatRun MisfitStrategy.global [mkRat 1 2, mkRat 1 2]
      keys perms data9) 1 0 = 2 ∧
    arm_count (stochatreatRun MisfitStrategy.global [mkRat 1 2, mkRat 1 2]
      keys perms data9) 1 1 = 2 := by
  have hL : get_lcm_prob_denominators [mkRat 1 2, mkRat 1 2] = 2 := by
    decide
  have hprep : prepare data9 =
      [(1, 0), (2, 0), (3, 0), (4, 0), (5, 0),
       (6, 1), (7, 1), (8, 1), (9, 1)] := by decide
  set P : List (ℤ × ℤ) :=
    [(1, 0), (2, 0), (3, 0), (4, 0), (5, 0),
     (6, 1), (7, 1), (8, 1), (9, 1)] with hPdef
  have hsids : stratum_ids P = [0, 1] := by decide
  have hzfst : (P.zip keys).map Prod.fst = P :=
    List.map_fst_zip P keys (by exact hk)
  set sorted : List ((ℤ × ℤ) × ℚ) :=
    List.insertionSort lexLt (P.zip keys) with hsorteddef
  set grp0 : List (ℤ × ℤ) :=
    (sorted.filter (fun x => decide (x.1.2 = (0 : ℤ)))).map Prod.fst
    with hgrp0def
  set grp1 : List (ℤ × ℤ) :=
    (sorted.filter (fun x => decide (x.1.2 = (1 : ℤ)))).map Prod.fst
    with hgrp1def
  have hglen : ∀ s : ℤ,
      ((sorted.filter (fun x => decide (x.1.2 = s))).map Prod.fst).length
        = P.countP (fun y => decide (y.2 = s)) := by
    intro s
    rw [List.length_map, ← List.countP_eq_length_filter]
    rw [(List.perm_insertionSort lexLt (P.zip keys)).countP_eq]
    rw [show (fun x : (ℤ × ℤ) × ℚ => decide (x.1.2 = s)) =
      ((fun y : ℤ × ℤ => decide (y.2 = s)) ∘ Prod.fst) from rfl]
    rw [← List.countP_map, hzfst]
  have hgrp0len : grp0.length = 5 := by
    rw [hgrp0def, hglen 0]
    decide
  have hgrp1len : grp1.length = 4 := by
    rw [hgrp1def, hglen 1]
    decide
  have hgmem : ∀ s : ℤ, ∀ y ∈
      (sorted.filter (fun x => decide (x.1.2 = s))).map Prod.fst,
      y.2 = s ∧ y ∈ P := by
    intro s y hy
    rcases List.mem_map.mp hy with ⟨t, ht, rfl⟩
    have ht' := List.mem_filter.mp ht
    have htm : t ∈ P.zip keys := by
      rw [hsorteddef] at ht'
      exact (List.mem_insertionSort lexLt).mp ht'.1
    refine ⟨by simpa using ht'.2, (List.of_mem_zip htm).1⟩
  have hgrp0mem : ∀ y ∈ grp0, y.2 = 0 ∧ y ∈ P := hgmem 0
  have hgrp1mem : ∀ y ∈ grp1, y.2 = 1 ∧ y ∈ P := hgmem 1
  have hE : extract_misfits P 2 keys = (grp0.drop 1 ++ grp1, grp0.take 1)
      := by
    unfold extract_misfits
    rw [hsids]
    simp only [List.map_cons, List.map_nil, List.flatten_cons,
      List.flatten_nil, List.append_nil]
    rw [← hsorteddef, ← hgrp0def, ← hgrp1def, hgrp0len, hgrp1len]
    simp
  set prepG : List (ℤ × ℤ) :=
    (grp0.drop 1 ++ grp1) ++
      (grp0.take 1).map (fun x : ℤ × ℤ => ((x.1, -1) : ℤ × ℤ))
    with hprepGdef
  have hrearr : rearranged MisfitStrategy.global P 2 keys = prepG := by
    show (extract_misfits P 2 keys).1 ++
      (extract_misfits P 2 keys).2.map
        (fun x : ℤ × ℤ => ((x.1, -1) : ℤ × ℤ)) = prepG
    rw [hE]
  have htake1len : (grp0.take 1).length = 1 := by
    rw [List.length_take, hgrp0len]
    decide
  have hsnd : prepG.map Prod.snd =
      (List.replicate 4 (0 : ℤ) ++ List.replicate 4 (1 : ℤ)) ++
        List.replicate 1 (-1 : ℤ) := by
    rw [hprepGdef, List.map_append, List.map_append]
    congr 1
    · congr 1
      · refine List.eq_replicate_iff.mpr ⟨?_, ?_⟩
        · rw [List.length_map, List.length_drop, hgrp0len]
        · intro b hb
          rcases List.mem_map.mp hb with ⟨y, hy, rfl⟩
          exact (hgrp0mem y (List.mem_of_mem_drop hy)).1
      · refine List.eq_replicate_iff.mpr ⟨?_, ?_⟩
        · rw [List.length_map, hgrp1len]
        · intro b hb
          rcases List.mem_map.mp hb with ⟨y, hy, rfl⟩
          exact (hgrp1mem y hy).1
    · refine List.eq_replicate_iff.mpr ⟨?_, ?_⟩
      · rw [List.length_map, List.length_map, htake1len]
      · intro b hb
        rcases List.mem_map.mp hb with ⟨y, hy, rfl⟩
        rcases List.mem_map.mp hy with ⟨x, _, rfl⟩
        rfl
  have hsidG : stratum_ids prepG = [-1, 0, 1] := by
    unfold stratum_ids
    rw [hsnd]
    decide
  have hfm : prepG.filter (fun x => decide (x.2 = (-1 : ℤ))) =
      (grp0.take 1).map (fun x : ℤ × ℤ => ((x.1, -1) : ℤ × ℤ)) := by
    rw [hprepGdef, List.filter_append, List.filter_append]
    rw [List.filter_eq_nil_iff.mpr (fun y hy => by
      have := (hgrp0mem y (List.mem_of_mem_drop hy)).1
      simp [this])]
    rw [List.filter_eq_nil_iff.mpr (fun y hy => by
      have := (hgrp1mem y hy).1
      simp [this])]
    rw [List.filter_eq_self.mpr (fun y hy => by
      rcases List.mem_map.mp hy with ⟨x, _, rfl⟩
      simp)]
    simp
  have hf0 : prepG.filter (fun x => decide (x.2 = (0 : ℤ))) =
      grp0.drop 1 := by
    rw [hprepGdef, List.filter_append, List.filter_append]
    rw [List.filter_eq_self.mpr (fun y hy => by
      have := (hgrp0mem y (List.mem_of_mem_drop hy)).1
      simp [this])]
    rw [List.filter_eq_nil_iff.mpr (fun y hy => by
      have := (hgrp1mem y hy).1
      simp [this])]
    rw [List.filter_eq_nil_iff.mpr (fun y hy => by
      rcases List.mem_map.mp hy with ⟨x, _, rfl⟩
      simp)]
    simp
  have hf1 : prepG.filter (fun x => decide (x.2 = (1 : ℤ))) = grp1 := by
    rw [hprepGdef, List.filter_append, List.filter_append]
    rw [List.filter_eq_nil_iff.mpr (fun y hy => by
      have := (hgrp0mem y (List.mem_of_mem_drop hy)).1
      simp [this])]
    rw [List.filter_eq_self.mpr (fun y hy => by
      have := (hgrp1mem y hy).1
      simp [this])]
    rw [List.filter_eq_nil_iff.mpr (fun y hy => by
      rcases List.mem_map.mp hy with ⟨x, _, rfl⟩
      simp)]
    simp
  have hgroups : groupByStratum prepG =
      [(-1, (grp0.take 1).map Prod.fst),
       (0, (grp0.drop 1).map Prod.fst),
       (1, grp1.map Prod.fst)] := by
    unfold groupByStratum
    rw [hsidG]
    simp only [List.map_cons, List.map_nil]
    rw [hfm, hf0, hf1, List.map_map]
    rfl
  have hout : stochatreatRun MisfitStrategy.global [mkRat 1 2, mkRat 1 2]
      keys perms data9 =
      assign_groups [0, 1] 2 perms 0 (groupByStratum prepG) := by
    show assign_groups (treat_mask [mkRat 1 2, mkRat 1 2])
      (get_lcm_prob_denominators [mkRat 1 2, mkRat 1 2]) perms 0
      (groupByStratum (rearranged MisfitStrategy.global (prepare data9)
        (get_lcm_prob_denominators [mkRat 1 2, mkRat 1 2]) keys)) = _
    rw [hL, hprep, treat_mask_half, hrearr]
  have hnodup := groupByStratum_keys_nodup prepG
  have hmask2 : ([0, 1] : List ℕ).length = 2 := rfl
  have hL2 : 0 < 2 := by norm_num
  have hlen0 : ((grp0.drop 1).map Prod.fst).length = 4 := by
    rw [List.length_map, List.length_drop, hgrp0len]
  have hlen1 : (grp1.map Prod.fst).length = 4 := by
    rw [List.length_map, hgrp1len]
  have hlenm : ((grp0.take 1).map Prod.fst).length = 1 := by
    rw [List.length_map, htake1len]
  have harm : ∀ (s : ℤ) (ids : List ℤ),
      (s, ids) ∈ groupByStratum prepG → ids.length = 4 → ∀ t : ℕ,
      List.count t [0, 1] = 1 →
      arm_count (assign_groups [0, 1] 2 perms 0 (groupByStratum prepG))
        s t = 2 := by
    intro s ids hmem hidslen t hct
    obtain ⟨b, hb⟩ := arm_count_assign_groups [0, 1] 2 perms hmask2 hL2
      hperms (groupByStratum prepG) 0 s ids t hnodup hmem
    rw [hb, hidslen]
    obtain ⟨r, hr, hcnt⟩ := count_stratum_treats [0, 1] 2 perms b 4 t
      hmask2 hL2 hperms
    rw [hcnt, hct]
    omega
  have hmemg0 : ((0 : ℤ), (grp0.drop 1).map Prod.fst) ∈
      groupByStratum prepG := by
    rw [hgroups]
    exact List.mem_cons_of_mem _ (List.mem_cons_self _ _)
  have hmemg1 : ((1 : ℤ), grp1.map Prod.fst) ∈ groupByStratum prepG := by
    rw [hgroups]
    exact List.mem_cons_of_mem _
      (List.mem_cons_of_mem _ (List.mem_cons_self _ _))
  have hmemgm : (((-1) : ℤ), (grp0.take 1).map Prod.fst) ∈
      groupByStratum prepG := by
    rw [hgroups]
    exact List.mem_cons_self _ _
  refine ⟨?_, ?_, ?_, ?_, ?_, ?_⟩
  · rw [hout, ← List.countP_eq_length_filter]
    rw [stratum_count_assign_groups [0, 1] 2 perms hmask2 hL2 hperms
      (groupByStratum prepG) 0 (-1) ((grp0.take 1).map Prod.fst) hnodup
      hmemgm]
    exact hlenm
  · intro r hrmem hs
    rw [hout] at hrmem
    obtain ⟨g, hg, h1, h2⟩ := mem_assign_groups [0, 1] 2 perms
      (groupByStratum prepG) 0 r hrmem
    rw [hgroups] at hg
    have hP05 : ∀ y ∈ P, y.2 = 0 → y.1 ∈ ([1, 2, 3, 4, 5] : List ℤ) := by
      decide
    rcases List.mem_cons.mp hg with hg1 | hg'
    · subst hg1
      rcases List.mem_map.mp h2 with ⟨y, hy, hyid⟩
      have hyg := hgrp0mem y (List.mem_of_mem_take hy)
      rw [← hyid]
      exact hP05 y hyg.2 hyg.1
    · rcases List.mem_cons.mp hg' with hg2 | hg''
      · subst hg2
        rw [h1] at hs
        simp at hs
      · rcases List.mem_cons.mp hg'' with hg3 | hg4
        · subst hg3
          rw [h1] at hs
          simp at hs
        · cases hg4
  · rw [hout]
    exact harm 0 ((grp0.drop 1).map Prod.fst) hmemg0 hlen0 0 (by decide)
  · rw [hout]
    exact harm 0 ((grp0.drop 1).map Prod.fst) hmemg0 hlen0 1 (by decide)
  · rw [hout]
    exact harm 1 (grp1.map Prod.fst) hmemg1 hlen1 0 (by decide)
  · rw [hout]
    exact harm 1 (grp1.map Prod.fst) hmemg1 hlen1 1 (by decide)

/-- C6 witness: the literal scenario run with a concrete misfit-draw
oracle (all draws equal) and the identity permutation oracle. -/
theorem claim_C6_witness :
    9 ≤ (List.replicate 9 (0 : ℚ)).length ∧
    (((stochatreatRun MisfitStrategy.global [mkRat 1 2, mkRat 1 2]
      (List.replicate 9 (0 : ℚ)) (fun _ => List.range 2) data9).filter
        (fun r => decide (r.stratum_id = -1))).length = 1 ∧
    (∀ r ∈ stochatreatRun MisfitStrategy.global [mkRat 1 2, mkRat 1 2]
      (List.replicate 9 (0 : ℚ)) (fun _ => List.range 2) data9,
        r.stratum_id = -1 → r.id ∈ ([1, 2, 3, 4, 5] : List ℤ)) ∧
    arm_count (stochatreatRun MisfitStrategy.global [mkRat 1 2, mkRat 1 2]
      (List.replicate 9 (0 : ℚ)) (fun _ => List.range 2) data9) 0 0 = 2 ∧
    arm_count (stochatreatRun MisfitStrategy.global [mkRat 1 2, mkRat 1 2]
      (List.replicate 9 (0 : ℚ)) (fun _ => List.range 2) data9) 0 1 = 2 ∧
    arm_count (stochatreatRun MisfitStrategy.global [mkRat 1 2, mkRat 1 2]
      (List.replicate 9 (0 : ℚ)) (fun _ => List.range 2) data9) 1 0 = 2 ∧
    arm_count (stochatreatRun MisfitStrategy.global [mkRat 1 2, mkRat 1 2]
      (List.replicate 9 (0 : ℚ)) (fun _ => List.range 2) data9) 1 1 = 2)
    :=
  ⟨by decide,
    claim_C6_literal_scenario (List.replicate 9 (0 : ℚ))
      (fun _ => List.range 2) (by decide) (validPerms_range 2)⟩

end Stochatreat
